import Mathlib

/- Verification development for the discrete event simulation repository.

   Part 1 embeds the resource race protocol of hospital_process.py
   together with the semantics of the simpy.Resource pools the repository
   drives (request, FIFO trigger loop, release); stateful Python code
   becomes explicit state passing, virtual times are rationals.
   Part 2 embeds the simulation driver of simpy_simulation.py as an
   executable event loop over a defunctionalised continuation heap.
   Part 3 embeds the optimisation wrapper of
   linear_optimisation_problem.py.  All theorems come afterwards. -/

namespace RaceModel

/-- Terminal or pending status of the grant-versus-timeout race attached to
one resource request, as run by
`HospitalProcess.request_resource_and_monitor_time`. -/
inductive Outcome where
  | Pending
  | Granted
  | TimedOut
  deriving DecidableEq, Repr

/-- The timeout threshold hard coded in `request_resource_and_monitor_time`:
`self.env.timeout(10000)`. -/
def timeoutThreshold : ℚ := 10000

/-- State of one shared `simpy.Resource` pool together with the race
bookkeeping of the monitor processes.  `users` is the list of granted
request ids (its length is the held count), `queue` the FIFO put queue of
pending request events; `enq`, `outcome` and `res` record, per request id,
the enqueue time, the race outcome and the virtual time at which the race
resolved. -/
structure St where
  capacity : Nat
  now : ℚ
  users : List Nat
  queue : List Nat
  enq : Nat → ℚ
  outcome : Nat → Outcome
  res : Nat → ℚ

/-- One trace operation on the pool: a stage issues a `request()` or
releases a request after its service delay.  Grants and timeouts are not
free operations: SimPy grants only inside the `request`/`release` trigger
loops, and the 10000 minute timeouts fire by themselves, both of which
`step` reproduces. -/
inductive Op where
  | request (r : Nat)
  | release (r : Nat)
  deriving DecidableEq, Repr

/-- Fire the pending 10000 minute timeout of request `r` once its deadline
has passed: the race resolves `TimedOut` at the deadline.  The request is
not removed from the pool queue, because the source never cancels the
losing request event of the race. -/
def fireOne (s : St) (r : Nat) : St :=
  if s.outcome r = .Pending ∧ s.enq r + timeoutThreshold ≤ s.now then
    { s with outcome := Function.update s.outcome r .TimedOut,
             res := Function.update s.res r (s.enq r + timeoutThreshold) }
  else s

/-- Fire every due timeout.  Only queued requests can still be pending, so
scanning the queue reaches every pending race.  At equal virtual times a
due timeout event carries the older event id, so SimPy dispatches it before
any grant of the same instant; firing due timeouts before the operation of
the current instant reproduces that order. -/
def fireTimeouts (s : St) : St := s.queue.foldl fireOne s

/-- The `simpy.resources.base.BaseResource._trigger_put` loop specialised
to `simpy.Resource._do_put`: starting from the held list `users`, grant
queued requests in FIFO order while capacity is free (`_do_put` appends to
`users` only when `len(users) < capacity`, and once the pool is full no
later queue entry can be granted).  Returns the granted prefix of the
queue and the remaining queue. -/
def grantSplit (cap : Nat) (users : List Nat) : List Nat → List Nat × List Nat
  | [] => ([], [])
  | r :: rest =>
    if users.length < cap then
      let p := grantSplit cap (users ++ [r]) rest
      (r :: p.1, p.2)
    else ([], r :: rest)

/-- Record the race resolutions caused by a batch of grants: a grant
resolves a still pending race as `Granted` at the current instant, while a
race already resolved by its timeout keeps the `TimedOut` outcome even
though the stale request is now counted among the users, since the source
never cancels the request event after the timeout wins the race. -/
def applyGrants (t : ℚ) (g : List Nat) (s : St) : St :=
  g.foldl (fun st r =>
    if st.outcome r = .Pending then
      { st with outcome := Function.update st.outcome r .Granted,
                res := Function.update st.res r t }
    else st) s

/-- Advance the virtual clock to the fire time of the dispatched event;
the scheduler delivers events in nondecreasing time order. -/
def advance (s : St) (t : ℚ) : St :=
  { s with now := if s.now ≤ t then t else s.now }

/-- `request()` on the pool (`simpy.resources.base.Put.__init__`): append
the fresh request event to the put queue and run the trigger loop, then
record the race resolutions of the grants. -/
def doRequest (r : Nat) (s1 : St) : St :=
  let q := s1.queue ++ [r]
  let s2 := { s1 with enq := Function.update s1.enq r s1.now }
  let p := grantSplit s2.capacity s2.users q
  applyGrants s2.now p.1 { s2 with users := s2.users ++ p.1, queue := p.2 }

/-- `release(request)` on the pool: remove the request from the users
(`list.remove` with `ValueError` ignored, so releasing a never granted
request leaves the users untouched), run the trigger loop, and record the
race resolutions of the grants. -/
def doRelease (r : Nat) (s1 : St) : St :=
  let u := s1.users.erase r
  let p := grantSplit s1.capacity u s1.queue
  applyGrants s1.now p.1 { s1 with users := u ++ p.1, queue := p.2 }

/-- One dispatched operation at virtual time `t`: the clock advances, the
due monitor timeouts fire (they hold the older event ids, so at an equal
instant they beat the grants of the operation), then the operation runs. -/
def step (s : St) (op : ℚ × Op) : St :=
  let s1 := fireTimeouts (advance s op.1)
  match op.2 with
  | .request r => doRequest r s1
  | .release r => doRelease r s1

/-- Initial pool state, as built by `setup_resource_environment`. -/
def init (cap : Nat) : St :=
  ⟨cap, 0, [], [], fun _ => 0, fun _ => .Pending, fun _ => 0⟩

/-- Run a trace of stage operations against one pool. -/
def run (cap : Nat) (ops : List (ℚ × Op)) : St := ops.foldl step (init cap)

/-- Virtual time at which the race of request `r` reaches its terminal
outcome: the grant time when the grant won, otherwise the timeout deadline
(every monitor schedules the 10000 minute timeout unconditionally, so a
race the grant never resolved times out at its deadline once the scheduler
drains). -/
def resolution (s : St) (r : Nat) : ℚ :=
  if s.outcome r = .Granted then s.res r else s.enq r + timeoutThreshold

/-- The trace refuting claim C1, at the level of one capacity one pool:
requester 0 is granted at time 0 and holds the resource until time 20000;
requester 1 enqueues at time 1, its race times out at time 10001, and its
stage releases all its requests at time 10006 (which does not remove the
never granted request from the queue).  When requester 0 finally releases
at time 20000, the trigger loop grants the stale request. -/
def c1trace : List (ℚ × Op) :=
  [(0, .request 0), (1, .request 1), (10006, .release 1), (20000, .release 0)]

/-- `x` occurs strictly before `y` in the list. -/
def Before (x y : Nat) (q : List Nat) : Prop :=
  ∃ i j : Nat, i < j ∧ q[i]? = some x ∧ q[j]? = some y

/-- The request ids issued along a trace, in trace order. -/
def reqIds (ops : List (ℚ × Op)) : List Nat :=
  ops.filterMap (fun p => match p.2 with | .request r => some r | .release _ => none)

/-- Analysis invariant for the FIFO fairness proof: request `a` was
enqueued at time `ta`; if its race already resolved `Granted` the
resolution happened no later than now and strictly before its timeout
deadline, and if it resolved `TimedOut` its deadline has passed. -/
def GIA (s : St) (a : Nat) (ta : ℚ) : Prop :=
  s.enq a = ta ∧
  (s.outcome a = .Granted → s.res a ≤ s.now ∧ s.res a < ta + timeoutThreshold) ∧
  (s.outcome a = .TimedOut → ta + timeoutThreshold ≤ s.now)

/-- Analysis invariant: the queue has no duplicate request events, queued
requests were issued by the trace, and only issued requests can have left
the `Pending` outcome. -/
def WfQ (s : St) (ids : List Nat) : Prop :=
  s.queue.Nodup ∧ (∀ r ∈ s.queue, r ∈ ids) ∧
  (∀ r : Nat, s.outcome r ≠ .Pending → r ∈ ids)

/-- Analysis invariant between the two enqueues: request `a` is still
queued, or its race resolved no later than the current instant. -/
def Kinv (s : St) (a : Nat) : Prop :=
  a ∈ s.queue ∨ resolution s a ≤ s.now

/-- Analysis invariant after both enqueues: while `b` is queued its race
has not been won by a grant and `a` sits ahead of it in the FIFO queue
unless `a` already resolved; once `b` left the queue with a `Granted`
outcome, `a` resolved no later than `b`'s grant instant. -/
def Jinv (s : St) (a b : Nat) : Prop :=
  (b ∈ s.queue → s.outcome b ≠ .Granted ∧
      (Before a b s.queue ∨ resolution s a ≤ s.now)) ∧
  (b ∉ s.queue → s.outcome b = .Granted → resolution s a ≤ s.res b)

end RaceModel

namespace HospitalProcessM

/-- A Python float as this code path produces it: a finite value or the
positive infinity `float(\x27inf\x27)` used as the timeout sentinel. -/
inductive PyFloat where
  | val (q : ℚ)
  | inf
  deriving DecidableEq, Repr

/-- The wait time value `request_resource_and_monitor_time` stores into
`resource_wait_times`: `env.now - start_time` when the request event won
the race, and the float infinity when the timeout won. -/
def recordedWaitTime (grantFirst : Bool) (start now : ℚ) : PyFloat :=
  if grantFirst then .val (now - start) else .inf

/-- The exact pairs on which the final loop of `HospitalProcess.run`
invokes `release` after the service delay:
`for res, request in zip(self.resource_names, request_store)` releases
every issued request, with no check of the race outcome. -/
def releaseCalls (resource_names : List String) (request_store : List Nat) :
    List (String × Nat) :=
  resource_names.zip request_store

/-- Modelled from the spec, for comparison with `releaseCalls`: the spec
says the stage releases exactly the resources whose race outcome was
`Granted`. -/
def specReleaseCalls (outcome : Nat → RaceModel.Outcome)
    (resource_names : List String) (request_store : List Nat) :
    List (String × Nat) :=
  (resource_names.zip request_store).filter
    (fun p => decide (outcome p.2 = .Granted))

end HospitalProcessM

namespace Sim

/-- One entry of `process_list`: `[name, resource names, [tmin, tmax]]`,
unpacked by `HospitalProcess.__init__` into `time_min`/`time_max`. -/
structure StageSpec where
  name : String
  resources : List String
  tmin : ℚ
  tmax : ℚ

/-- The constructor arguments of `SimpySimulation`. -/
structure SimConfig where
  resource_dict : List (String × Int)
  process_list : List StageSpec
  log_process_list : List String
  warmup_period : ℚ
  untilTime : ℚ

/-- One `simpy.Resource` of the shared pool dictionary. -/
structure Pool where
  capacity : Nat
  users : List Nat
  queue : List Nat

/-- Bookkeeping for one resource request and its grant-versus-timeout
race: owning patient, enqueue time, race outcome and resolution time. -/
structure RaceInfo where
  pid : Nat
  enq : ℚ
  status : RaceModel.Outcome
  resolvedAt : ℚ

/-- Progress of one patient process: index of the stage it is in and the
request ids issued by that stage. -/
structure PatientSt where
  stage : Nat
  reqs : List Nat

/-- Defunctionalised continuations of the SimPy processes: the arrival
generator waking up, a monitor timeout firing, and a stage service delay
ending (which releases the resources and starts the next stage). -/
inductive Target where
  | arrival
  | timeoutEv (rid : Nat)
  | stageEnd (pid : Nat)
  deriving DecidableEq, Repr

/-- Whole simulation state: the event heap keyed by fire time and event
sequence number, the pools, the race and patient bookkeeping, the two
random stream cursors, and the `SimpySimulation` object fields
`patient_log_data` and `resource_busy_time`.  `evLog` records the sequence
of dispatched events.  The random sources are modelled as the streams of
values they produce: `arrStream` the `random.lognormvariate` inter-arrival
gaps and `svcStream` the unit draws behind `np.random.uniform`; a fixed
seed fixes these streams. -/
structure SimSt where
  conf : SimConfig
  arrStream : Nat → ℚ
  svcStream : Nat → ℚ
  now : ℚ
  heap : List (ℚ × Nat × Target)
  nextSeq : Nat
  pools : List (String × Pool)
  races : Nat → RaceInfo
  patients : Nat → PatientSt
  arrIdx : Nat
  svcIdx : Nat
  nextPid : Nat
  nextReq : Nat
  crashed : Bool
  patient_log_data : List (String × ℚ × ℚ)
  resource_busy_time : List (String × ℚ)
  evLog : List (ℚ × Target)

/-- Insert an event keeping the heap sorted by fire time, ties broken by
event sequence number (SimPy schedules with a monotone event id, making
dispatch order deterministic). -/
def heapInsert (e : ℚ × Nat × Target) :
    List (ℚ × Nat × Target) → List (ℚ × Nat × Target)
  | [] => [e]
  | x :: xs =>
    if e.1 < x.1 ∨ (e.1 = x.1 ∧ e.2.1 < x.2.1) then e :: x :: xs
    else x :: heapInsert e xs

/-- Schedule a continuation at virtual time `t`. -/
def schedule (t : ℚ) (tgt : Target) (s : SimSt) : SimSt :=
  { s with heap := heapInsert (t, s.nextSeq, tgt) s.heap,
           nextSeq := s.nextSeq + 1 }

/-- Look up `self.shared_resources[res]`. -/
def lookupPool (res : String) (ps : List (String × Pool)) : Option Pool :=
  (ps.find? (fun p => p.1 == res)).map Prod.snd

/-- Write back one pool of the shared dictionary. -/
def setPool (res : String) (pl : Pool) (ps : List (String × Pool)) :
    List (String × Pool) :=
  ps.map (fun p => if p.1 == res then (p.1, pl) else p)

/-- `shared_resources[res].request()`: append the fresh request event to
the put queue and run the trigger loop; returns the granted requests.  A
resource name absent from the dictionary is a `KeyError` that crashes the
run (`env.run` re-raises it). -/
def poolRequest (res : String) (rid : Nat) (s : SimSt) : SimSt × List Nat :=
  match lookupPool res s.pools with
  | none => ({ s with crashed := true }, [])
  | some pl =>
    let p := RaceModel.grantSplit pl.capacity pl.users (pl.queue ++ [rid])
    ({ s with pools := setPool res { pl with users := pl.users ++ p.1,
                                             queue := p.2 } s.pools }, p.1)

/-- `shared_resources[res].release(request)`: remove the request from the
users if present (`ValueError` ignored) and run the trigger loop; returns
the requests the trigger loop granted. -/
def poolRelease (res : String) (rid : Nat) (s : SimSt) : SimSt × List Nat :=
  match lookupPool res s.pools with
  | none => ({ s with crashed := true }, [])
  | some pl =>
    let u := pl.users.erase rid
    let p := RaceModel.grantSplit pl.capacity u pl.queue
    ({ s with pools := setPool res { pl with users := u ++ p.1,
                                             queue := p.2 } s.pools }, p.1)

/-- Overwrite the race bookkeeping of one request id. -/
def setRace (rid : Nat) (ri : RaceInfo) (s : SimSt) : SimSt :=
  { s with races := Function.update s.races rid ri }

/-- The AND-join of `HospitalProcess.run`: once every race of the stage of
patient `pid` is resolved, `yield env.all_of(...)` returns, the service
duration is sampled as `np.random.uniform(time_min, time_max)` (the next
unit draw of the numpy stream scaled to the range) and the service delay
is scheduled. -/
def joinCheck (pid : Nat) (t : ℚ) (s : SimSt) : SimSt :=
  let ps := s.patients pid
  match s.conf.process_list[ps.stage]? with
  | none => s
  | some spec =>
    if ps.reqs.all (fun r => decide ((s.races r).status ≠ .Pending)) then
      let dur := spec.tmin + (spec.tmax - spec.tmin) * s.svcStream s.svcIdx
      schedule (t + dur) (.stageEnd pid) { s with svcIdx := s.svcIdx + 1 }
    else s

/-- Resolve the races of requests granted by a release trigger loop: a
pending race resolves `Granted` now (and the owning stage may complete its
join); a race the timeout already resolved keeps its `TimedOut` outcome
even though the pool now counts the stale request among its users. -/
def applyGrantsSim (t : ℚ) (g : List Nat) (s : SimSt) : SimSt :=
  g.foldl (fun st r =>
    let ri := st.races r
    if ri.status = .Pending then
      joinCheck ri.pid t (setRace r { ri with status := .Granted,
                                              resolvedAt := t } st)
    else st) s

/-- Issue one resource request of a starting stage: allocate a fresh
request id, record its race as pending, run `request()` on the pool, and
schedule the 10000 minute monitor timeout.  Accumulates the issued ids and
the synchronously granted ids. -/
def issueOne (pid : Nat) (t : ℚ) (acc : SimSt × List Nat × List Nat)
    (res : String) : SimSt × List Nat × List Nat :=
  let s := acc.1
  let rid := s.nextReq
  let s1 := setRace rid { pid := pid, enq := t, status := .Pending,
                          resolvedAt := 0 } { s with nextReq := s.nextReq + 1 }
  let pr := poolRequest res rid s1
  let s2 := schedule (t + RaceModel.timeoutThreshold) (.timeoutEv rid) pr.1
  (s2, acc.2.1 ++ [rid], acc.2.2 ++ pr.2)

/-- Start stage `i` of patient `pid` (`HospitalProcess.run` up to the
join): request every resource of the stage, spawn the monitors (modelled
by the timeout events and the race bookkeeping), resolve the synchronous
grants at the current instant, and complete the join at once when nothing
is left pending.  Past the last stage the patient is done; nothing is
appended to `patient_log_data`, since `patient_process` ends without
recording anything. -/
def stageStart (pid : Nat) (i : Nat) (t : ℚ) (s : SimSt) : SimSt :=
  match s.conf.process_list[i]? with
  | none =>
    { s with patients := Function.update s.patients pid ⟨i, []⟩ }
  | some spec =>
    let a := spec.resources.foldl (issueOne pid t) (s, [], [])
    let s1 := { a.1 with
      patients := Function.update a.1.patients pid ⟨i, a.2.1⟩ }
    let s2 := a.2.2.foldl (fun st r =>
      let ri := st.races r
      if ri.status = .Pending then
        setRace r { ri with status := .Granted, resolvedAt := t } st
      else st) s1
    joinCheck pid t s2

/-- Dispatch one continuation at its fire time. -/
def dispatch (tgt : Target) (t : ℚ) (s : SimSt) : SimSt :=
  match tgt with
  | .arrival =>
    let pid := s.nextPid
    let s1 := stageStart pid 0 t { s with nextPid := s.nextPid + 1 }
    schedule (t + s1.arrStream s1.arrIdx) .arrival { s1 with arrIdx := s1.arrIdx + 1 }
  | .timeoutEv rid =>
    let ri := s.races rid
    if ri.status = .Pending then
      joinCheck ri.pid t (setRace rid { ri with status := .TimedOut,
                                                resolvedAt := t } s)
    else s
  | .stageEnd pid =>
    let ps := s.patients pid
    match s.conf.process_list[ps.stage]? with
    | none => s
    | some spec =>
      let s1 := (spec.resources.zip ps.reqs).foldl (fun st p =>
        let pr := poolRelease p.1 p.2 st
        applyGrantsSim t pr.2 pr.1) s
      stageStart pid (ps.stage + 1) t s1

/-- `env.run(until=simulation_time)`: dispatch events in
(time, sequence) order; events at or past the horizon stay unprocessed;
an unhandled exception stops the run.  `fuel` bounds the number of
dispatches (the arrival generator alone makes the event set infinite). -/
def runLoop : Nat → SimSt → SimSt
  | 0, s => s
  | fuel + 1, s =>
    if s.crashed then s else
    match s.heap with
    | [] => s
    | (t, _, tgt) :: rest =>
      if s.conf.untilTime ≤ t then s
      else runLoop fuel (dispatch tgt t { s with heap := rest, now := t,
                                                 evLog := s.evLog ++ [(t, tgt)] })

/-- `setup_resource_environment`: build one `simpy.Resource` per entry of
`resource_dict`; `simpy.Resource.__init__` raises `ValueError` on a
capacity that is not positive. -/
def setupResources : List (String × Int) → Except String (List (String × Pool))
  | [] => .ok []
  | (r, c) :: rest =>
    if c ≤ 0 then .error "capacity must be greater than zero"
    else (setupResources rest).map (fun ps => (r, ⟨c.toNat, [], []⟩) :: ps)

/-- `begin()` before the event loop: fresh environment, resource setup
(which can raise on a bad capacity, after `__init__` already stored all
fields), the arrival generator process.  The generator draws its first
inter-arrival gap before its first yield, so the first arrival fires at
`arrStream 0` and the cursor starts at 1. -/
def initSim (c : SimConfig) (arr svc : Nat → ℚ) : SimSt :=
  match setupResources c.resource_dict with
  | .error _ =>
    { conf := c, arrStream := arr, svcStream := svc, now := 0, heap := [],
      nextSeq := 0, pools := [], races := fun _ => ⟨0, 0, .Pending, 0⟩,
      patients := fun _ => ⟨0, []⟩, arrIdx := 0, svcIdx := 0, nextPid := 0,
      nextReq := 0, crashed := true, patient_log_data := [],
      resource_busy_time := c.resource_dict.map (fun p => (p.1, 0)),
      evLog := [] }
  | .ok ps =>
    { conf := c, arrStream := arr, svcStream := svc, now := 0,
      heap := [(arr 0, 0, .arrival)], nextSeq := 1, pools := ps,
      races := fun _ => ⟨0, 0, .Pending, 0⟩, patients := fun _ => ⟨0, []⟩,
      arrIdx := 1, svcIdx := 0, nextPid := 0, nextReq := 0, crashed := false,
      patient_log_data := [],
      resource_busy_time := c.resource_dict.map (fun p => (p.1, 0)),
      evLog := [] }

/-- A whole `begin()` call: setup followed by the bounded event loop. -/
def runSim (c : SimConfig) (arr svc : Nat → ℚ) (fuel : Nat) : SimSt :=
  runLoop fuel (initSim c arr svc)

end Sim

namespace SimpySim

/-- The object `SimpySimulation.__init__` builds: plain field assignments,
nothing else. -/
structure SimpyObj where
  resource_dict : List (String × Int)
  warmup_period : ℚ
  process_list : List Sim.StageSpec
  log_process_list : List String
  patient_log_data : List (String × ℚ × ℚ)
  resource_busy_time : List (String × ℚ)
  simulation_time : ℚ

/-- `SimpySimulation.__init__`: stores the configuration, an empty
`patient_log_data`, a zero `resource_busy_time` per resource, and the
horizon.  The source contains no validation and no raise, so construction
always succeeds; the `Except` shape only makes the claimed
`ConfigurationError` statable. -/
def simpyInit (c : Sim.SimConfig) : Except String SimpyObj :=
  .ok { resource_dict := c.resource_dict,
        warmup_period := c.warmup_period,
        process_list := c.process_list,
        log_process_list := c.log_process_list,
        patient_log_data := [],
        resource_busy_time := c.resource_dict.map (fun p => (p.1, 0)),
        simulation_time := c.untilTime }

/-- Modelled from the spec, for comparison with `simpyInit`: the three
configuration faults the spec says `ConfigurationError` rejects — a stage
referencing a resource absent from the pool dictionary, a capacity that is
zero or negative, and a service range with `min > max`. -/
def InvalidConfig (c : Sim.SimConfig) : Prop :=
  (∃ sp ∈ c.process_list, ∃ r ∈ sp.resources,
      (c.resource_dict.find? (fun p => p.1 == r)) = none) ∨
  (∃ p ∈ c.resource_dict, p.2 ≤ 0) ∨
  (∃ sp ∈ c.process_list, sp.tmax < sp.tmin)

end SimpySim

namespace LinOpt

/-- Solver status as PuLP reports it after `problem.solve()`. -/
inductive LpStatus where
  | Optimal
  | Infeasible
  | Unbounded
  | NotSolved
  | Undefined
  deriving DecidableEq, Repr

/-- What the external CBC solver leaves behind: a status and a value per
decision variable (the variables are integer category, so `int()` is the
identity on them). -/
structure PulpResult where
  status : LpStatus
  values : String → Int

/-- `LinearOptimisationProblem.solve`: runs the solver, then
unconditionally stores `{key: int(pulp.value(var)) for key in
resource_keys}` into `optimal_resources`.  The status the solver reports
is never consulted. -/
def solveStore (resource_keys : List String) (res : PulpResult) :
    List (String × Int) :=
  resource_keys.map (fun k => (k, res.values k))

end LinOpt

namespace Instances

/-- A configuration whose only stage references the resource name `X`,
absent from the pool dictionary. -/
def cfgMissing : Sim.SimConfig :=
  { resource_dict := [("R", 1)],
    process_list := [⟨"S", ["X"], 1, 2⟩],
    log_process_list := [], warmup_period := 0, untilTime := 100 }

/-- A configuration violating all three validity conditions of the spec:
zero capacity, a stage referencing an absent resource, and a service
range with min above max. -/
def cfgBad : Sim.SimConfig :=
  { resource_dict := [("R", 0)],
    process_list := [⟨"S", ["X"], 5, 3⟩],
    log_process_list := [], warmup_period := 0, untilTime := 100 }

/-- A small well formed configuration, used to instantiate universally
quantified theorems at a concrete input. -/
def cfgOk : Sim.SimConfig :=
  { resource_dict := [("R", 1)],
    process_list := [⟨"S", ["R"], 1, 2⟩],
    log_process_list := [], warmup_period := 0, untilTime := 100 }

/-- A constant unit stream. -/
def oneQ : Nat → ℚ := fun _ => 1

/-- A constant zero stream. -/
def zeroQ : Nat → ℚ := fun _ => 0

/-- A race state with one held request and a saturated capacity one pool,
used to instantiate theorems with hypotheses at a concrete input. -/
def satSt : RaceModel.St :=
  { capacity := 1, now := 5, users := [0], queue := [1],
    enq := fun _ => 0, outcome := fun _ => .Pending, res := fun _ => 0 }

/-- A concrete saturated pool trace: request 0 holds the capacity one
pool, requests 1 and 2 enqueue at times 1 and 2, and the three releases
resolve them in FIFO order. -/
def c4ops : List (ℚ × RaceModel.Op) :=
  [(0, .request 0), (1, .request 1), (2, .request 2),
   (5, .release 0), (6, .release 1), (7, .release 2)]

end Instances

/- ================= Theorems ================= -/

/-- Generic invariant preservation through a left fold. -/
theorem foldl_inv {σ α : Type _} (P : σ → Prop) (f : σ → α → σ)
    (h : ∀ s a, P s → P (f s a)) :
    ∀ (l : List α) (s : σ), P s → P (l.foldl f s) := by
  intro l
  induction l with
  | nil => intro s hs; exact hs
  | cons a l ih => intro s hs; exact ih _ (h _ _ hs)

namespace RaceModel

@[simp] theorem fireOne_users (s : St) (r : Nat) : (fireOne s r).users = s.users := by
  unfold fireOne; split <;> rfl

@[simp] theorem fireOne_queue (s : St) (r : Nat) : (fireOne s r).queue = s.queue := by
  unfold fireOne; split <;> rfl

@[simp] theorem fireOne_capacity (s : St) (r : Nat) : (fireOne s r).capacity = s.capacity := by
  unfold fireOne; split <;> rfl

@[simp] theorem fireOne_now (s : St) (r : Nat) : (fireOne s r).now = s.now := by
  unfold fireOne; split <;> rfl

@[simp] theorem fireOne_enq (s : St) (r : Nat) : (fireOne s r).enq = s.enq := by
  unfold fireOne; split <;> rfl

@[simp] theorem fireTimeouts_users (s : St) : (fireTimeouts s).users = s.users :=
  foldl_inv (fun st => st.users = s.users) _
    (fun st r h => (fireOne_users st r).trans h) s.queue s rfl

@[simp] theorem fireTimeouts_queue (s : St) : (fireTimeouts s).queue = s.queue :=
  foldl_inv (fun st => st.queue = s.queue) _
    (fun st r h => (fireOne_queue st r).trans h) s.queue s rfl

@[simp] theorem fireTimeouts_capacity (s : St) : (fireTimeouts s).capacity = s.capacity :=
  foldl_inv (fun st => st.capacity = s.capacity) _
    (fun st r h => (fireOne_capacity st r).trans h) s.queue s rfl

@[simp] theorem fireTimeouts_now (s : St) : (fireTimeouts s).now = s.now :=
  foldl_inv (fun st => st.now = s.now) _
    (fun st r h => (fireOne_now st r).trans h) s.queue s rfl

@[simp] theorem fireTimeouts_enq (s : St) : (fireTimeouts s).enq = s.enq :=
  foldl_inv (fun st => st.enq = s.enq) _
    (fun st r h => (fireOne_enq st r).trans h) s.queue s rfl

@[simp] theorem applyGrants_users (t : ℚ) (g : List Nat) (s : St) :
    (applyGrants t g s).users = s.users :=
  foldl_inv (fun st => st.users = s.users) _
    (fun st r h => by dsimp only; split <;> exact h) g s rfl

@[simp] theorem applyGrants_queue (t : ℚ) (g : List Nat) (s : St) :
    (applyGrants t g s).queue = s.queue :=
  foldl_inv (fun st => st.queue = s.queue) _
    (fun st r h => by dsimp only; split <;> exact h) g s rfl

@[simp] theorem applyGrants_capacity (t : ℚ) (g : List Nat) (s : St) :
    (applyGrants t g s).capacity = s.capacity :=
  foldl_inv (fun st => st.capacity = s.capacity) _
    (fun st r h => by dsimp only; split <;> exact h) g s rfl

@[simp] theorem applyGrants_now (t : ℚ) (g : List Nat) (s : St) :
    (applyGrants t g s).now = s.now :=
  foldl_inv (fun st => st.now = s.now) _
    (fun st r h => by dsimp only; split <;> exact h) g s rfl

@[simp] theorem applyGrants_enq (t : ℚ) (g : List Nat) (s : St) :
    (applyGrants t g s).enq = s.enq :=
  foldl_inv (fun st => st.enq = s.enq) _
    (fun st r h => by dsimp only; split <;> exact h) g s rfl

/-- Granting from the queue while capacity is free cannot push the held
list beyond the capacity. -/
theorem grantSplit_len (cap : Nat) : ∀ (q users : List Nat),
    users.length ≤ cap → (users ++ (grantSplit cap users q).1).length ≤ cap := by
  intro q
  induction q with
  | nil => intro users h; simpa using h
  | cons r rest ih =>
    intro users h
    by_cases hlt : users.length < cap
    · have := ih (users ++ [r]) (by simpa using hlt)
      simpa [grantSplit, hlt, List.append_assoc] using this
    · simpa [grantSplit, hlt] using h

/-- A full pool grants nothing. -/
theorem grantSplit_full (cap : Nat) (users q : List Nat)
    (h : ¬ users.length < cap) : (grantSplit cap users q).1 = [] := by
  cases q <;> simp [grantSplit, h]

@[simp] theorem step_capacity (s : St) (op : ℚ × Op) :
    (step s op).capacity = s.capacity := by
  rcases op with ⟨t, o⟩
  cases o <;> simp [step, advance, doRequest, doRelease]

/-- One step keeps the held count within the capacity. -/
theorem step_users_length_le (s : St) (op : ℚ × Op)
    (h : s.users.length ≤ s.capacity) :
    (step s op).users.length ≤ s.capacity := by
  rcases op with ⟨t, o⟩
  cases o with
  | request r =>
    simpa [step, advance, doRequest] using grantSplit_len s.capacity _ s.users h
  | release r =>
    have herase : (s.users.erase r).length ≤ s.capacity :=
      le_trans (List.Sublist.length_le (List.erase_sublist r s.users)) h
    simpa [step, advance, doRelease] using grantSplit_len s.capacity _ (s.users.erase r) herase

end RaceModel

/-- C1: the spec demands that a request whose timeout fires first is
cancelled, removed from the wait queue, and never later granted or counted
in the held count.  The code does not cancel: after requester 1 times out
at 10001 (and its stage even calls `release` on the never granted request
at 10006, a no-op on the held list), requester 0's release at 20000 makes
the trigger loop grant the stale request, which is then counted in the
held count while its race outcome is `TimedOut` — the dangling grant the
spec rules out. -/
theorem c1_dangling_grant_after_timeout :
    (RaceModel.run 1 RaceModel.c1trace).outcome 1 = .TimedOut ∧
    1 ∈ (RaceModel.run 1 RaceModel.c1trace).users ∧
    (RaceModel.run 1 RaceModel.c1trace).users.length = 1 := by
  norm_num [RaceModel.run, RaceModel.c1trace, RaceModel.step,
    RaceModel.advance, RaceModel.doRequest, RaceModel.doRelease,
    RaceModel.fireTimeouts, RaceModel.fireOne, RaceModel.grantSplit,
    RaceModel.applyGrants, RaceModel.init, RaceModel.timeoutThreshold,
    Function.update]
  simp [Function.update]

/-- C3: in every state reachable by any interleaving of stage operations
(requests and releases, with their embedded grants and the self firing
timeouts), the held count of a pool stays between 0 and the capacity. -/
theorem c3_held_count_within_capacity (cap : Nat) (ops : List (ℚ × RaceModel.Op)) :
    0 ≤ (RaceModel.run cap ops).users.length ∧
    (RaceModel.run cap ops).users.length ≤ cap := by
  refine ⟨Nat.zero_le _, ?_⟩
  have h := foldl_inv
    (fun s : RaceModel.St => s.users.length ≤ s.capacity ∧ s.capacity = cap)
    RaceModel.step
    (fun s op hp =>
      ⟨(RaceModel.step_users_length_le s op hp.1).trans
          (le_of_eq (RaceModel.step_capacity s op).symm),
        (RaceModel.step_capacity s op).trans hp.2⟩)
    ops (RaceModel.init cap) ⟨by simp [RaceModel.init], rfl⟩
  unfold RaceModel.run
  exact h.1.trans (le_of_eq h.2)

/-- C2 counterexample: the claim says a stage releases exactly the
requests whose race outcome was `Granted`.  At a stage with one resource
whose race timed out, the release loop of `HospitalProcess.run` still
calls release on it, while the claimed release set is empty. -/
theorem c2_release_includes_timed_out :
    HospitalProcessM.releaseCalls ["Lab Eqpt"] [7] ≠
    HospitalProcessM.specReleaseCalls (fun _ => .TimedOut) ["Lab Eqpt"] [7] := by
  simp [HospitalProcessM.releaseCalls, HospitalProcessM.specReleaseCalls]

/-- C2 amended: after the service delay fires, the stage calls release on
every request it issued, timed-out ones included; releasing a request that
was never granted leaves the held list of a saturated pool unchanged (the
`list.remove` raises `ValueError`, which the release handler swallows, and
a full pool grants nothing). -/
theorem c2_run_releases_every_request :
    (∀ (names : List String) (store : List Nat),
      HospitalProcessM.releaseCalls names store = names.zip store) ∧
    (∀ (s : RaceModel.St) (t : ℚ) (r : Nat), r ∉ s.users →
      s.capacity ≤ s.users.length →
      (RaceModel.step s (t, .release r)).users = s.users) := by
  refine ⟨fun names store => rfl, fun s t r hmem hfull => ?_⟩
  have herase : s.users.erase r = s.users := List.erase_of_not_mem hmem
  have hnotlt : ¬ s.users.length < s.capacity := not_lt.mpr hfull
  simp [RaceModel.step, RaceModel.advance, RaceModel.doRelease, herase,
    RaceModel.grantSplit_full _ _ _ hnotlt]

/-- Witness for the amended C2 at a concrete saturated pool: request 1 is
queued and timed out, its release leaves the held list `[0]` untouched. -/
theorem c2_run_releases_every_request_witness :
    (1 ∉ Instances.satSt.users ∧
      Instances.satSt.capacity ≤ Instances.satSt.users.length) ∧
    (RaceModel.step Instances.satSt (6, .release 1)).users =
      Instances.satSt.users :=
  ⟨⟨by decide, by decide⟩,
    c2_run_releases_every_request.2 Instances.satSt 6 1 (by decide) (by decide)⟩

/-- C6 counterexample: the claim says a timed-out request's recorded wait
is a tagged sentinel that is in particular not a floating point infinity;
the value `request_resource_and_monitor_time` actually stores on the
timeout branch is exactly the float infinity. -/
theorem c6_timeout_recorded_as_infinity :
    HospitalProcessM.recordedWaitTime false 0 7 = .inf := rfl

/-- C6 amended: on timeout-first the monitor records the floating point
infinity `float(\x27inf\x27)` (not a tagged sentinel); on grant-first it
records the numeric duration `env.now - start_time`, which is the grant
time minus the enqueue time. -/
theorem c6_wait_record_values (start now : ℚ) :
    HospitalProcessM.recordedWaitTime false start now = .inf ∧
    HospitalProcessM.recordedWaitTime true start now = .val (now - start) :=
  ⟨rfl, rfl⟩

/-- C9 counterexample: with an infeasible status reported by the solver,
`solve` still stores a plain numeric allocation, identical to what it
stores for an optimal status with the same variable values — the caller
cannot distinguish infeasibility from a solution. -/
theorem c9_infeasible_status_ignored :
    LinOpt.solveStore ["Stretcher"] ⟨.Infeasible, fun _ => 1⟩ =
      LinOpt.solveStore ["Stretcher"] ⟨.Optimal, fun _ => 1⟩ ∧
    LinOpt.solveStore ["Stretcher"] ⟨.Infeasible, fun _ => 1⟩ =
      [("Stretcher", 1)] :=
  ⟨rfl, rfl⟩

/-- C9 amended: `solve` never consults the status `problem.solve()`
returns; it unconditionally stores the integer coerced variable values, so
its stored result is a function of the values alone and infeasibility is
never surfaced to the caller. -/
theorem c9_solve_ignores_status (keys : List String) (st st' : LinOpt.LpStatus)
    (v : String → Int) :
    LinOpt.solveStore keys ⟨st, v⟩ = LinOpt.solveStore keys ⟨st', v⟩ := rfl

/-- C8 counterexample: a configuration violating all three validity
conditions of the spec (zero capacity, stage referencing an absent
resource, min above max) still constructs successfully:
`SimpySimulation.__init__` only stores fields and raises nothing. -/
theorem c8_invalid_config_constructs :
    SimpySim.InvalidConfig Instances.cfgBad ∧
    (SimpySim.simpyInit Instances.cfgBad).isOk = true := by
  constructor
  · exact Or.inr (Or.inl ⟨("R", 0), by simp [Instances.cfgBad], by norm_num⟩)
  · rfl


namespace Sim

@[simp] theorem schedule_log (t : ℚ) (tgt : Target) (s : SimSt) :
    (schedule t tgt s).patient_log_data = s.patient_log_data := rfl

@[simp] theorem schedule_busy (t : ℚ) (tgt : Target) (s : SimSt) :
    (schedule t tgt s).resource_busy_time = s.resource_busy_time := rfl

@[simp] theorem setRace_log (rid : Nat) (ri : RaceInfo) (s : SimSt) :
    (setRace rid ri s).patient_log_data = s.patient_log_data := rfl

@[simp] theorem setRace_busy (rid : Nat) (ri : RaceInfo) (s : SimSt) :
    (setRace rid ri s).resource_busy_time = s.resource_busy_time := rfl

@[simp] theorem poolRequest_log (res : String) (rid : Nat) (s : SimSt) :
    (poolRequest res rid s).1.patient_log_data = s.patient_log_data := by
  unfold poolRequest
  cases lookupPool res s.pools <;> rfl

@[simp] theorem poolRequest_busy (res : String) (rid : Nat) (s : SimSt) :
    (poolRequest res rid s).1.resource_busy_time = s.resource_busy_time := by
  unfold poolRequest
  cases lookupPool res s.pools <;> rfl

@[simp] theorem poolRelease_log (res : String) (rid : Nat) (s : SimSt) :
    (poolRelease res rid s).1.patient_log_data = s.patient_log_data := by
  unfold poolRelease
  cases lookupPool res s.pools <;> rfl

@[simp] theorem poolRelease_busy (res : String) (rid : Nat) (s : SimSt) :
    (poolRelease res rid s).1.resource_busy_time = s.resource_busy_time := by
  unfold poolRelease
  cases lookupPool res s.pools <;> rfl

@[simp] theorem joinCheck_log (pid : Nat) (t : ℚ) (s : SimSt) :
    (joinCheck pid t s).patient_log_data = s.patient_log_data := by
  unfold joinCheck
  dsimp only
  cases h : s.conf.process_list[(s.patients pid).stage]? with
  | none => rfl
  | some spec =>
    simp only [h]
    split <;> rfl

@[simp] theorem joinCheck_busy (pid : Nat) (t : ℚ) (s : SimSt) :
    (joinCheck pid t s).resource_busy_time = s.resource_busy_time := by
  unfold joinCheck
  dsimp only
  cases h : s.conf.process_list[(s.patients pid).stage]? with
  | none => rfl
  | some spec =>
    simp only [h]
    split <;> rfl

@[simp] theorem applyGrantsSim_log (t : ℚ) (g : List Nat) (s : SimSt) :
    (applyGrantsSim t g s).patient_log_data = s.patient_log_data := by
  unfold applyGrantsSim
  refine foldl_inv (fun st : SimSt => st.patient_log_data = s.patient_log_data) _
    (fun st r h => ?_) g s rfl
  dsimp only
  split <;> simp [h]

@[simp] theorem applyGrantsSim_busy (t : ℚ) (g : List Nat) (s : SimSt) :
    (applyGrantsSim t g s).resource_busy_time = s.resource_busy_time := by
  unfold applyGrantsSim
  refine foldl_inv (fun st : SimSt => st.resource_busy_time = s.resource_busy_time) _
    (fun st r h => ?_) g s rfl
  dsimp only
  split <;> simp [h]

@[simp] theorem issueOne_log (pid : Nat) (t : ℚ)
    (acc : SimSt × List Nat × List Nat) (res : String) :
    (issueOne pid t acc res).1.patient_log_data = acc.1.patient_log_data := by
  unfold issueOne
  simp

@[simp] theorem issueOne_busy (pid : Nat) (t : ℚ)
    (acc : SimSt × List Nat × List Nat) (res : String) :
    (issueOne pid t acc res).1.resource_busy_time = acc.1.resource_busy_time := by
  unfold issueOne
  simp

@[simp] theorem stageStart_log (pid i : Nat) (t : ℚ) (s : SimSt) :
    (stageStart pid i t s).patient_log_data = s.patient_log_data := by
  unfold stageStart
  cases h : s.conf.process_list[i]? with
  | none => rfl
  | some spec =>
    simp only [h]
    rw [joinCheck_log]
    have h1 := foldl_inv
      (fun acc : SimSt × List Nat × List Nat =>
        acc.1.patient_log_data = s.patient_log_data)
      (issueOne pid t)
      (fun acc r hacc => (issueOne_log pid t acc r).trans hacc)
      spec.resources (s, [], []) rfl
    refine foldl_inv
      (fun st : SimSt => st.patient_log_data = s.patient_log_data) _
      (fun st r hst => ?_) _ _ (by simpa using h1)
    dsimp only
    split <;> simp [hst]

@[simp] theorem stageStart_busy (pid i : Nat) (t : ℚ) (s : SimSt) :
    (stageStart pid i t s).resource_busy_time = s.resource_busy_time := by
  unfold stageStart
  cases h : s.conf.process_list[i]? with
  | none => rfl
  | some spec =>
    simp only [h]
    rw [joinCheck_busy]
    have h1 := foldl_inv
      (fun acc : SimSt × List Nat × List Nat =>
        acc.1.resource_busy_time = s.resource_busy_time)
      (issueOne pid t)
      (fun acc r hacc => (issueOne_busy pid t acc r).trans hacc)
      spec.resources (s, [], []) rfl
    refine foldl_inv
      (fun st : SimSt => st.resource_busy_time = s.resource_busy_time) _
      (fun st r hst => ?_) _ _ (by simpa using h1)
    dsimp only
    split <;> simp [hst]

@[simp] theorem dispatch_log (tgt : Target) (t : ℚ) (s : SimSt) :
    (dispatch tgt t s).patient_log_data = s.patient_log_data := by
  cases tgt with
  | arrival => simp [dispatch]
  | timeoutEv rid =>
    unfold dispatch
    dsimp only
    split <;> simp
  | stageEnd pid =>
    unfold dispatch
    dsimp only
    cases h : s.conf.process_list[(s.patients pid).stage]? with
    | none => rfl
    | some spec =>
      simp only [h]
      rw [stageStart_log]
      refine foldl_inv
        (fun st : SimSt => st.patient_log_data = s.patient_log_data) _
        (fun st p hst => ?_) _ _ rfl
      dsimp only
      simp [hst]

@[simp] theorem dispatch_busy (tgt : Target) (t : ℚ) (s : SimSt) :
    (dispatch tgt t s).resource_busy_time = s.resource_busy_time := by
  cases tgt with
  | arrival => simp [dispatch]
  | timeoutEv rid =>
    unfold dispatch
    dsimp only
    split <;> simp
  | stageEnd pid =>
    unfold dispatch
    dsimp only
    cases h : s.conf.process_list[(s.patients pid).stage]? with
    | none => rfl
    | some spec =>
      simp only [h]
      rw [stageStart_busy]
      refine foldl_inv
        (fun st : SimSt => st.resource_busy_time = s.resource_busy_time) _
        (fun st p hst => ?_) _ _ rfl
      dsimp only
      simp [hst]

theorem runLoop_log (fuel : Nat) : ∀ s : SimSt,
    (runLoop fuel s).patient_log_data = s.patient_log_data := by
  induction fuel with
  | zero => intro s; rfl
  | succ n ih =>
    intro s
    unfold runLoop
    split
    · rfl
    · split
      · rfl
      · split
        · rfl
        · rw [ih, dispatch_log]

theorem runLoop_busy (fuel : Nat) : ∀ s : SimSt,
    (runLoop fuel s).resource_busy_time = s.resource_busy_time := by
  induction fuel with
  | zero => intro s; rfl
  | succ n ih =>
    intro s
    unfold runLoop
    split
    · rfl
    · split
      · rfl
      · split
        · rfl
        · rw [ih, dispatch_busy]

end Sim

/-- C5: the claim says a record is appended to `patient_log_data` for
every completed patient.  In the code nothing ever appends to
`patient_log_data` — `patient_process` finishes patients without recording
them — so after any run (any configuration, any streams, any number of
dispatched events) the log is still the empty list `__init__` created,
contradicting both the claim and the docstring that describes
`patient_log_data` as the list of datapoints for all patients. -/
theorem c5_patient_log_never_written (c : Sim.SimConfig) (arr svc : Nat → ℚ)
    (fuel : Nat) :
    (Sim.runSim c arr svc fuel).patient_log_data = [] := by
  rw [Sim.runSim, Sim.runLoop_log]
  unfold Sim.initSim
  cases Sim.setupResources c.resource_dict <;> rfl

/-- C10: `resource_busy_time` maps every resource to 0 at construction
and no operation of the simulation ever updates it: in every reachable
state of every run (any fuel, so any prefix of the event processing,
including after `begin()` completes) it is still the zero map built by
`__init__`. -/
theorem c10_busy_time_always_zero (c : Sim.SimConfig) (arr svc : Nat → ℚ)
    (fuel : Nat) :
    (SimpySim.simpyInit c).toOption.map SimpySim.SimpyObj.resource_busy_time =
      some (c.resource_dict.map (fun p => (p.1, (0 : ℚ)))) ∧
    (Sim.runSim c arr svc fuel).resource_busy_time =
      c.resource_dict.map (fun p => (p.1, (0 : ℚ))) := by
  constructor
  · rfl
  · rw [Sim.runSim, Sim.runLoop_busy]
    unfold Sim.initSim
    cases Sim.setupResources c.resource_dict <;> rfl

/-- C7: the whole run is a pure function of the configuration and of the
two random streams (the `random.lognormvariate` inter-arrival gaps and
the unit draws behind `np.random.uniform`); fixing the seeds fixes the
streams, and two runs with equal streams and equal configuration produce
the same final state — in particular the same dispatched event sequence
(`evLog`) and the same patient records. -/
theorem c7_run_deterministic (c₁ c₂ : Sim.SimConfig) (a₁ a₂ v₁ v₂ : Nat → ℚ)
    (fuel₁ fuel₂ : Nat) (hc : c₁ = c₂) (ha : a₁ = a₂) (hv : v₁ = v₂)
    (hf : fuel₁ = fuel₂) :
    Sim.runSim c₁ a₁ v₁ fuel₁ = Sim.runSim c₂ a₂ v₂ fuel₂ := by
  subst hc; subst ha; subst hv; subst hf; rfl

/-- Witness for C7 at a concrete configuration and concrete streams. -/
theorem c7_run_deterministic_witness :
    Sim.runSim Instances.cfgOk Instances.oneQ Instances.zeroQ 2 =
      Sim.runSim Instances.cfgOk Instances.oneQ Instances.zeroQ 2 :=
  c7_run_deterministic _ _ _ _ _ _ _ _ rfl rfl rfl rfl


/-- C8 amended: construction never raises — for every configuration,
including those with an absent resource name, a nonpositive capacity or a
reversed service range, `__init__` succeeds with every field stored.  The
only capacity validation happens later, inside `begin()`, where building
the `simpy.Resource` pools fails on a zero capacity — after the object was
already fully initialised. -/
theorem c8_validation_deferred :
    (∀ c : Sim.SimConfig, (SimpySim.simpyInit c).isOk = true) ∧
    (Sim.setupResources [("R", 0)]).isOk = false :=
  ⟨fun _ => rfl, rfl⟩

namespace RaceModel

theorem mem_iff_some_getElem {a : Nat} {l : List Nat} :
    a ∈ l ↔ ∃ n : Nat, l[n]? = some a := by
  constructor
  · intro h
    obtain ⟨n, hn, he⟩ := List.getElem_of_mem h
    exact ⟨n, by simp [List.getElem?_eq_some, hn, he]⟩
  · rintro ⟨n, hn⟩
    obtain ⟨hlt, rfl⟩ := List.getElem?_eq_some.mp hn
    exact List.getElem_mem hlt

theorem before_mem_left {x y : Nat} {l : List Nat} (h : Before x y l) : x ∈ l := by
  obtain ⟨i, j, _, hi, _⟩ := h
  exact mem_iff_some_getElem.mpr ⟨i, hi⟩

theorem before_mem_right {x y : Nat} {l : List Nat} (h : Before x y l) : y ∈ l := by
  obtain ⟨i, j, _, _, hj⟩ := h
  exact mem_iff_some_getElem.mpr ⟨j, hj⟩

theorem before_append {x y : Nat} {l l₂ : List Nat} (h : Before x y l) :
    Before x y (l ++ l₂) := by
  obtain ⟨i, j, hij, hi, hj⟩ := h
  have hjl : j < l.length := (List.getElem?_eq_some.mp hj).1
  have hil : i < l.length := lt_trans hij hjl
  exact ⟨i, j, hij, by rw [List.getElem?_append_left hil]; exact hi,
    by rw [List.getElem?_append_left hjl]; exact hj⟩

theorem before_concat {x y : Nat} {l : List Nat} (hx : x ∈ l) :
    Before x y (l ++ [y]) := by
  obtain ⟨i, hi⟩ := mem_iff_some_getElem.mp hx
  have hil : i < l.length := (List.getElem?_eq_some.mp hi).1
  exact ⟨i, l.length, hil, by rw [List.getElem?_append_left hil]; exact hi,
    List.getElem?_concat_length l y⟩

theorem nodup_index_unique {l : List Nat} (hnd : l.Nodup) {i j a : Nat}
    (hi : l[i]? = some a) (hj : l[j]? = some a) : i = j := by
  obtain ⟨hi1, hi2⟩ := List.getElem?_eq_some.mp hi
  obtain ⟨hj1, hj2⟩ := List.getElem?_eq_some.mp hj
  exact (List.Nodup.getElem_inj_iff hnd).mp (hi2.trans hj2.symm)

theorem mem_drop_index {l : List Nat} {k a i : Nat} (hnd : l.Nodup)
    (hmem : a ∈ l.drop k) (hi : l[i]? = some a) : k ≤ i := by
  obtain ⟨m, hm⟩ := mem_iff_some_getElem.mp hmem
  rw [List.getElem?_drop] at hm
  have := nodup_index_unique hnd hm hi
  omega

theorem before_drop {x y : Nat} {l : List Nat} {k : Nat} (hnd : l.Nodup)
    (hb : Before x y l) (hy : y ∈ l.drop k) :
    Before x y (l.drop k) ∨ x ∉ l.drop k := by
  obtain ⟨i, j, hij, hi, hj⟩ := hb
  have hkj : k ≤ j := mem_drop_index hnd hy hj
  by_cases hki : k ≤ i
  · refine Or.inl ⟨i - k, j - k, by omega, ?_, ?_⟩
    · rw [List.getElem?_drop]
      rwa [Nat.add_sub_cancel' hki]
    · rw [List.getElem?_drop]
      rwa [Nat.add_sub_cancel' hkj]
  · refine Or.inr fun hxd => ?_
    exact hki (mem_drop_index hnd hxd hi)

theorem before_drop_cross {x y : Nat} {l : List Nat} {k : Nat} (hnd : l.Nodup)
    (hb : Before x y l) (hy : y ∉ l.drop k) : x ∉ l.drop k := by
  intro hxd
  obtain ⟨i, j, hij, hi, hj⟩ := hb
  have hki : k ≤ i := mem_drop_index hnd hxd hi
  refine hy (mem_iff_some_getElem.mpr ⟨j - k, ?_⟩)
  rw [List.getElem?_drop, Nat.add_sub_cancel' (by omega : k ≤ j)]
  exact hj

end RaceModel

/-- Generic invariant preservation through a left fold, where the step
preservation may use membership of the element in the folded list. -/
theorem foldl_inv_mem {σ α : Type _} (P : σ → Prop) (f : σ → α → σ) :
    ∀ (l : List α), (∀ s a, a ∈ l → P s → P (f s a)) →
      ∀ (s : σ), P s → P (l.foldl f s) := by
  intro l
  induction l with
  | nil => intro _ s hs; exact hs
  | cons a l ih =>
    intro h s hs
    exact ih (fun s' a' ha' hs' => h s' a' (List.mem_cons_of_mem a ha') hs') _
      (h s a (List.mem_cons_self a l) hs)

namespace RaceModel

theorem grantSplit_decomp (cap : Nat) : ∀ (q users : List Nat),
    (grantSplit cap users q).1 ++ (grantSplit cap users q).2 = q := by
  intro q
  induction q with
  | nil => intro users; rfl
  | cons r rest ih =>
    intro users
    by_cases h : users.length < cap
    · simp [grantSplit, h, ih]
    · simp [grantSplit, h]

theorem grantSplit_queue_drop (cap : Nat) (q users : List Nat) :
    (grantSplit cap users q).2 = q.drop (grantSplit cap users q).1.length := by
  have h := grantSplit_decomp cap q users
  calc (grantSplit cap users q).2
      = ((grantSplit cap users q).1 ++ (grantSplit cap users q).2).drop
          (grantSplit cap users q).1.length := (List.drop_left _ _).symm
    _ = q.drop (grantSplit cap users q).1.length := by rw [h]

theorem grantSplit_granted_sub (cap : Nat) (q users : List Nat) (r : Nat)
    (h : r ∈ (grantSplit cap users q).1) : r ∈ q := by
  rw [← grantSplit_decomp cap q users]
  exact List.mem_append_left _ h

theorem fireOne_outcome_ne (s : St) (x r : Nat) (h : x ≠ r) :
    (fireOne s x).outcome r = s.outcome r ∧ (fireOne s x).res r = s.res r := by
  unfold fireOne
  split
  · exact ⟨Function.update_noteq (Ne.symm h) _ _, Function.update_noteq (Ne.symm h) _ _⟩
  · exact ⟨rfl, rfl⟩

theorem fireOne_stable (s : St) (x r : Nat) (h : s.outcome r ≠ .Pending) :
    (fireOne s x).outcome r = s.outcome r ∧ (fireOne s x).res r = s.res r := by
  by_cases hx : x = r
  · subst hx
    unfold fireOne
    rw [if_neg (fun hc => h hc.1)]
    exact ⟨rfl, rfl⟩
  · exact fireOne_outcome_ne s x r hx

theorem foldl_fireOne_stable (l : List Nat) (s : St) (r : Nat)
    (h : s.outcome r ≠ .Pending) :
    (l.foldl fireOne s).outcome r = s.outcome r ∧
    (l.foldl fireOne s).res r = s.res r := by
  refine foldl_inv
    (fun st => st.outcome r = s.outcome r ∧ st.res r = s.res r) _
    (fun st x hst => ?_) l s ⟨rfl, rfl⟩
  have hne : st.outcome r ≠ .Pending := by rw [hst.1]; exact h
  have hfo := fireOne_stable st x r hne
  exact ⟨hfo.1.trans hst.1, hfo.2.trans hst.2⟩

theorem fireTimeouts_stable (s : St) (r : Nat) (h : s.outcome r ≠ .Pending) :
    (fireTimeouts s).outcome r = s.outcome r ∧
    (fireTimeouts s).res r = s.res r :=
  foldl_fireOne_stable s.queue s r h

theorem fireTimeouts_not_mem (s : St) (r : Nat) (h : r ∉ s.queue) :
    (fireTimeouts s).outcome r = s.outcome r ∧
    (fireTimeouts s).res r = s.res r := by
  refine foldl_inv_mem
    (fun st => st.outcome r = s.outcome r ∧ st.res r = s.res r) fireOne
    s.queue (fun st x hx hst => ?_) s ⟨rfl, rfl⟩
  have hxr : x ≠ r := fun he => h (he ▸ hx)
  have hfo := fireOne_outcome_ne st x r hxr
  exact ⟨hfo.1.trans hst.1, hfo.2.trans hst.2⟩

theorem fireTimeouts_pending_lt (s : St) (r : Nat) (hq : r ∈ s.queue)
    (hp : (fireTimeouts s).outcome r = .Pending) :
    s.now < s.enq r + timeoutThreshold := by
  unfold fireTimeouts at hp
  have main : ∀ (l : List Nat) (st : St), st.now = s.now → st.enq r = s.enq r →
      r ∈ l → (l.foldl fireOne st).outcome r = .Pending →
      s.now < s.enq r + timeoutThreshold := by
    intro l
    induction l with
    | nil => intro st _ _ hr; exact absurd hr (List.not_mem_nil r)
    | cons x xs ih =>
      intro st hnow henq hr hfold
      by_cases hx : x = r
      · subst hx
        by_cases hg : st.outcome x = .Pending ∧
            st.enq x + timeoutThreshold ≤ st.now
        · exfalso
          have h1 : (fireOne st x).outcome x = .TimedOut := by
            unfold fireOne
            rw [if_pos hg]
            exact Function.update_same _ _ _
          have h2 := foldl_fireOne_stable xs (fireOne st x) x (by rw [h1]; intro hc; cases hc)
          rw [List.foldl_cons, h2.1, h1] at hfold
          cases hfold
        · rcases Decidable.not_and_iff_or_not.mp hg with hg1 | hg2
          · exfalso
            have h2 := foldl_fireOne_stable xs (fireOne st x) x (by
              have := fireOne_stable st x x hg1
              rw [this.1]; exact hg1)
            have h3 := fireOne_stable st x x hg1
            rw [List.foldl_cons, h2.1, h3.1] at hfold
            exact hg1 hfold
          · rw [henq, hnow] at hg2
            exact lt_of_not_le hg2
      · have hrxs : r ∈ xs := by
          rcases List.mem_cons.mp hr with he | hxs
          · exact absurd he.symm hx
          · exact hxs
        rw [List.foldl_cons] at hfold
        have hne := fireOne_outcome_ne st x r hx
        exact ih (fireOne st x) ((fireOne_now st x).trans hnow)
          ((congrFun (fireOne_enq st x) r).trans henq) hrxs hfold
  exact main s.queue s rfl rfl hq hp

theorem fireTimeouts_timedout_origin (s : St) (r : Nat)
    (h : (fireTimeouts s).outcome r = .TimedOut) :
    s.outcome r = .TimedOut ∨ s.enq r + timeoutThreshold ≤ s.now := by
  unfold fireTimeouts at h
  have main := foldl_inv
    (fun st => (st.outcome r = .TimedOut →
        s.outcome r = .TimedOut ∨ s.enq r + timeoutThreshold ≤ s.now) ∧
      st.now = s.now ∧ st.enq r = s.enq r)
    fireOne
    (fun st x hst => by
      refine ⟨?_, (fireOne_now st x).trans hst.2.1,
        (congrFun (fireOne_enq st x) r).trans hst.2.2⟩
      intro hto
      by_cases hx : x = r
      · subst hx
        by_cases hg : st.outcome x = .Pending ∧
            st.enq x + timeoutThreshold ≤ st.now
        · right
          rw [← hst.2.2, ← hst.2.1]
          exact hg.2
        · have : (fireOne st x).outcome x = st.outcome x := by
            unfold fireOne
            rw [if_neg hg]
          rw [this] at hto
          exact hst.1 hto
      · rw [(fireOne_outcome_ne st x r hx).1] at hto
        exact hst.1 hto)
    s.queue s ⟨fun hto => Or.inl hto, rfl, rfl⟩
  exact main.1 h

theorem fireTimeouts_no_grant (s : St) (r : Nat)
    (h : (fireTimeouts s).outcome r = .Granted) : s.outcome r = .Granted := by
  unfold fireTimeouts at h
  have main := foldl_inv
    (fun st => st.outcome r = .Granted → s.outcome r = .Granted)
    fireOne
    (fun st x hst hgr => by
      refine hst ?_
      by_cases hx : x = r
      · subst hx
        unfold fireOne at hgr
        by_cases hg : st.outcome x = .Pending ∧
            st.enq x + timeoutThreshold ≤ st.now
        · rw [if_pos hg] at hgr
          simp [Function.update_same] at hgr
        · rwa [if_neg hg] at hgr
      · rwa [(fireOne_outcome_ne st x r hx).1] at hgr)
    s.queue s (fun hgr => hgr)
  exact main h

end RaceModel

namespace RaceModel

theorem applyGrants_not_mem (t : ℚ) (g : List Nat) (s : St) (r : Nat)
    (h : r ∉ g) :
    (applyGrants t g s).outcome r = s.outcome r ∧
    (applyGrants t g s).res r = s.res r := by
  unfold applyGrants
  refine foldl_inv_mem
    (fun st => st.outcome r = s.outcome r ∧ st.res r = s.res r) _ g
    (fun st x hx hst => ?_) s ⟨rfl, rfl⟩
  have hxr : x ≠ r := fun he => h (he ▸ hx)
  dsimp only
  split
  · exact ⟨(Function.update_noteq (Ne.symm hxr) _ _).trans hst.1,
      (Function.update_noteq (Ne.symm hxr) _ _).trans hst.2⟩
  · exact hst

theorem applyGrants_stable (t : ℚ) (g : List Nat) (s : St) (r : Nat)
    (h : s.outcome r ≠ .Pending) :
    (applyGrants t g s).outcome r = s.outcome r ∧
    (applyGrants t g s).res r = s.res r := by
  unfold applyGrants
  refine foldl_inv
    (fun st => st.outcome r = s.outcome r ∧ st.res r = s.res r) _
    (fun st x hst => ?_) g s ⟨rfl, rfl⟩
  dsimp only
  by_cases hx : x = r
  · subst hx
    rw [if_neg (by rw [hst.1]; exact h)]
    exact hst
  · split
    · exact ⟨(Function.update_noteq (Ne.symm hx) _ _).trans hst.1,
        (Function.update_noteq (Ne.symm hx) _ _).trans hst.2⟩
    · exact hst

theorem St_upd_outcome (s : St) (f : Nat → Outcome) (g : Nat → ℚ) :
    ({ s with outcome := f, res := g } : St).outcome = f := rfl

theorem St_upd_res (s : St) (f : Nat → Outcome) (g : Nat → ℚ) :
    ({ s with outcome := f, res := g } : St).res = g := rfl

theorem applyGrants_cons_pos (t : ℚ) (x : Nat) (xs : List Nat) (s : St)
    (hp : s.outcome x = .Pending) :
    applyGrants t (x :: xs) s =
      applyGrants t xs { s with outcome := Function.update s.outcome x .Granted,
                                res := Function.update s.res x t } := by
  unfold applyGrants
  rw [List.foldl_cons, if_pos hp]

theorem applyGrants_cons_neg (t : ℚ) (x : Nat) (xs : List Nat) (s : St)
    (hp : ¬ s.outcome x = .Pending) :
    applyGrants t (x :: xs) s = applyGrants t xs s := by
  unfold applyGrants
  rw [List.foldl_cons, if_neg hp]

theorem applyGrants_pending_mem (t : ℚ) : ∀ (g : List Nat) (s : St) (r : Nat),
    r ∈ g → s.outcome r = .Pending →
    (applyGrants t g s).outcome r = .Granted ∧ (applyGrants t g s).res r = t := by
  intro g
  induction g with
  | nil => intro s r hr; exact absurd hr (List.not_mem_nil r)
  | cons x xs ih =>
    intro s r hr hp
    by_cases hx : x = r
    · subst hx
      rw [applyGrants_cons_pos t x xs s hp]
      have hst := applyGrants_stable t xs
        { s with outcome := Function.update s.outcome x .Granted,
                 res := Function.update s.res x t } x
        (by rw [St_upd_outcome, Function.update_same]; intro hc; cases hc)
      rw [hst.1, hst.2, St_upd_outcome, St_upd_res,
        Function.update_same, Function.update_same]
      exact ⟨rfl, rfl⟩
    · have hrxs : r ∈ xs := by
        rcases List.mem_cons.mp hr with he | hxs
        · exact absurd he.symm hx
        · exact hxs
      by_cases hpx : s.outcome x = .Pending
      · rw [applyGrants_cons_pos t x xs s hpx]
        refine ih _ r hrxs ?_
        rw [St_upd_outcome, Function.update_noteq (Ne.symm hx)]
        exact hp
      · rw [applyGrants_cons_neg t x xs s hpx]
        exact ih s r hrxs hp

theorem applyGrants_grant_origin (t : ℚ) : ∀ (g : List Nat) (s : St) (r : Nat),
    (applyGrants t g s).outcome r = .Granted →
    s.outcome r = .Granted ∨
      (r ∈ g ∧ s.outcome r = .Pending ∧ (applyGrants t g s).res r = t) := by
  intro g
  induction g with
  | nil => intro s r h; exact Or.inl h
  | cons x xs ih =>
    intro s r h
    by_cases hx : x = r
    · subst hx
      by_cases hp : s.outcome x = .Pending
      · exact Or.inr ⟨List.mem_cons_self x xs, hp,
          (applyGrants_pending_mem t (x :: xs) s x (List.mem_cons_self x xs) hp).2⟩
      · rw [applyGrants_cons_neg t x xs s hp] at h ⊢
        rcases ih s x h with h1 | h2
        · exact Or.inl h1
        · exact Or.inr ⟨List.mem_cons_of_mem x h2.1, h2.2.1, h2.2.2⟩
    · by_cases hp : s.outcome x = .Pending
      · rw [applyGrants_cons_pos t x xs s hp] at h ⊢
        rcases ih _ r h with h1 | h2
        · rw [St_upd_outcome, Function.update_noteq (Ne.symm hx)] at h1
          exact Or.inl h1
        · rw [St_upd_outcome, Function.update_noteq (Ne.symm hx)] at h2
          exact Or.inr ⟨List.mem_cons_of_mem x h2.1, h2.2.1, h2.2.2⟩
      · rw [applyGrants_cons_neg t x xs s hp] at h ⊢
        rcases ih s r h with h1 | h2
        · exact Or.inl h1
        · exact Or.inr ⟨List.mem_cons_of_mem x h2.1, h2.2.1, h2.2.2⟩

theorem applyGrants_no_timeout (t : ℚ) : ∀ (g : List Nat) (s : St) (r : Nat),
    (applyGrants t g s).outcome r = .TimedOut → s.outcome r = .TimedOut := by
  intro g
  induction g with
  | nil => intro s r h; exact h
  | cons x xs ih =>
    intro s r h
    by_cases hp : s.outcome x = .Pending
    · rw [applyGrants_cons_pos t x xs s hp] at h
      have h2 := ih _ r h
      rw [St_upd_outcome] at h2
      by_cases hx : x = r
      · subst hx
        rw [Function.update_same] at h2
        cases h2
      · rwa [Function.update_noteq (Ne.symm hx)] at h2
    · rw [applyGrants_cons_neg t x xs s hp] at h
      exact ih s r h


end RaceModel

namespace RaceModel

@[simp] theorem advance_users (s : St) (t : ℚ) : (advance s t).users = s.users := rfl

@[simp] theorem advance_queue (s : St) (t : ℚ) : (advance s t).queue = s.queue := rfl

@[simp] theorem advance_capacity (s : St) (t : ℚ) : (advance s t).capacity = s.capacity := rfl

@[simp] theorem advance_enq (s : St) (t : ℚ) : (advance s t).enq = s.enq := rfl

@[simp] theorem advance_outcome (s : St) (t : ℚ) : (advance s t).outcome = s.outcome := rfl

@[simp] theorem advance_res (s : St) (t : ℚ) : (advance s t).res = s.res := rfl

theorem advance_now (s : St) (t : ℚ) :
    (advance s t).now = if s.now ≤ t then t else s.now := rfl

theorem advance_now_mono (s : St) (t : ℚ) : s.now ≤ (advance s t).now := by
  rw [advance_now]
  split
  · assumption
  · exact le_refl _

@[simp] theorem doRequest_now (x : Nat) (s1 : St) : (doRequest x s1).now = s1.now := by
  simp [doRequest]

@[simp] theorem doRequest_capacity (x : Nat) (s1 : St) :
    (doRequest x s1).capacity = s1.capacity := by
  simp [doRequest]

@[simp] theorem doRequest_enq (x : Nat) (s1 : St) :
    (doRequest x s1).enq = Function.update s1.enq x s1.now := by
  simp [doRequest]

@[simp] theorem doRelease_now (x : Nat) (s1 : St) : (doRelease x s1).now = s1.now := by
  simp [doRelease]

@[simp] theorem doRelease_capacity (x : Nat) (s1 : St) :
    (doRelease x s1).capacity = s1.capacity := by
  simp [doRelease]

@[simp] theorem doRelease_enq (x : Nat) (s1 : St) : (doRelease x s1).enq = s1.enq := by
  simp [doRelease]

theorem doRequest_queue (x : Nat) (s1 : St) :
    (doRequest x s1).queue =
      (s1.queue ++ [x]).drop
        ((grantSplit s1.capacity s1.users (s1.queue ++ [x])).1.length) := by
  simp [doRequest, grantSplit_queue_drop]

theorem doRelease_queue (x : Nat) (s1 : St) :
    (doRelease x s1).queue =
      s1.queue.drop
        ((grantSplit s1.capacity (s1.users.erase x) s1.queue).1.length) := by
  simp [doRelease, grantSplit_queue_drop]

theorem doRequest_outcome_stable (x : Nat) (s1 : St) (r : Nat)
    (h : s1.outcome r ≠ .Pending) :
    (doRequest x s1).outcome r = s1.outcome r ∧
    (doRequest x s1).res r = s1.res r := by
  unfold doRequest
  exact applyGrants_stable _ _ _ r h

theorem doRelease_outcome_stable (x : Nat) (s1 : St) (r : Nat)
    (h : s1.outcome r ≠ .Pending) :
    (doRelease x s1).outcome r = s1.outcome r ∧
    (doRelease x s1).res r = s1.res r := by
  unfold doRelease
  exact applyGrants_stable _ _ _ r h

theorem doRequest_outcome_not_mem (x : Nat) (s1 : St) (r : Nat) (hxr : x ≠ r)
    (hq : r ∉ s1.queue) :
    (doRequest x s1).outcome r = s1.outcome r ∧
    (doRequest x s1).res r = s1.res r := by
  unfold doRequest
  refine applyGrants_not_mem _ _ _ r (fun hg => ?_)
  have := grantSplit_granted_sub _ _ _ r hg
  rcases List.mem_append.mp this with h1 | h2
  · exact hq h1
  · exact hxr (List.mem_singleton.mp h2).symm

theorem doRelease_outcome_not_mem (x : Nat) (s1 : St) (r : Nat)
    (hq : r ∉ s1.queue) :
    (doRelease x s1).outcome r = s1.outcome r ∧
    (doRelease x s1).res r = s1.res r := by
  unfold doRelease
  refine applyGrants_not_mem _ _ _ r (fun hg => ?_)
  exact hq (grantSplit_granted_sub _ _ _ r hg)

theorem doRequest_grant_origin (x : Nat) (s1 : St) (r : Nat) (hxr : x ≠ r)
    (h : (doRequest x s1).outcome r = .Granted) :
    s1.outcome r = .Granted ∨
      (r ∈ s1.queue ∧ s1.outcome r = .Pending ∧
        (doRequest x s1).res r = s1.now) := by
  unfold doRequest at h ⊢
  rcases applyGrants_grant_origin _ _ _ r h with h1 | h2
  · exact Or.inl h1
  · obtain ⟨hg, hp, hres⟩ := h2
    have hmem := grantSplit_granted_sub _ _ _ r hg
    rcases List.mem_append.mp hmem with hq | hx
    · exact Or.inr ⟨hq, hp, hres⟩
    · exact absurd (List.mem_singleton.mp hx).symm hxr

theorem doRelease_grant_origin (x : Nat) (s1 : St) (r : Nat)
    (h : (doRelease x s1).outcome r = .Granted) :
    s1.outcome r = .Granted ∨
      (r ∈ s1.queue ∧ s1.outcome r = .Pending ∧
        (doRelease x s1).res r = s1.now) := by
  unfold doRelease at h ⊢
  rcases applyGrants_grant_origin _ _ _ r h with h1 | h2
  · exact Or.inl h1
  · exact Or.inr ⟨grantSplit_granted_sub _ _ _ r h2.1, h2.2.1, h2.2.2⟩

theorem doRequest_timedout_origin (x : Nat) (s1 : St) (r : Nat)
    (h : (doRequest x s1).outcome r = .TimedOut) : s1.outcome r = .TimedOut := by
  unfold doRequest at h
  have h2 := applyGrants_no_timeout _ _ _ r h
  exact h2

theorem doRelease_timedout_origin (x : Nat) (s1 : St) (r : Nat)
    (h : (doRelease x s1).outcome r = .TimedOut) : s1.outcome r = .TimedOut := by
  unfold doRelease at h
  have h2 := applyGrants_no_timeout _ _ _ r h
  exact h2

theorem doRequest_removed_pending (x : Nat) (s1 : St) (r : Nat)
    (hq : r ∈ s1.queue) (hq' : r ∉ (doRequest x s1).queue)
    (hp : s1.outcome r = .Pending) :
    (doRequest x s1).outcome r = .Granted ∧ (doRequest x s1).res r = s1.now := by
  have hful : r ∈ s1.queue ++ [x] := List.mem_append_left _ hq
  have hdec := grantSplit_decomp s1.capacity (s1.queue ++ [x]) s1.users
  have hqueue : (doRequest x s1).queue =
      (grantSplit s1.capacity s1.users (s1.queue ++ [x])).2 := by
    simp [doRequest]
  have hg : r ∈ (grantSplit s1.capacity s1.users (s1.queue ++ [x])).1 := by
    rw [← hdec] at hful
    rcases List.mem_append.mp hful with h1 | h2
    · exact h1
    · exact absurd (hqueue ▸ h2) hq'
  unfold doRequest
  exact applyGrants_pending_mem _ _ _ r hg hp

theorem doRelease_removed_pending (x : Nat) (s1 : St) (r : Nat)
    (hq : r ∈ s1.queue) (hq' : r ∉ (doRelease x s1).queue)
    (hp : s1.outcome r = .Pending) :
    (doRelease x s1).outcome r = .Granted ∧ (doRelease x s1).res r = s1.now := by
  have hdec := grantSplit_decomp s1.capacity s1.queue (s1.users.erase x)
  have hqueue : (doRelease x s1).queue =
      (grantSplit s1.capacity (s1.users.erase x) s1.queue).2 := by
    simp [doRelease]
  have hg : r ∈ (grantSplit s1.capacity (s1.users.erase x) s1.queue).1 := by
    have hful := hq
    rw [← hdec] at hful
    rcases List.mem_append.mp hful with h1 | h2
    · exact h1
    · exact absurd (hqueue ▸ h2) hq'
  unfold doRelease
  exact applyGrants_pending_mem _ _ _ r hg hp

end RaceModel

namespace RaceModel

theorem step_request (s : St) (t : ℚ) (x : Nat) :
    step s (t, .request x) = doRequest x (fireTimeouts (advance s t)) := rfl

theorem step_release (s : St) (t : ℚ) (x : Nat) :
    step s (t, .release x) = doRelease x (fireTimeouts (advance s t)) := rfl

theorem step_now (s : St) (t : ℚ) (op : Op) :
    (step s (t, op)).now = (advance s t).now := by
  cases op with
  | request x => rw [step_request, doRequest_now, fireTimeouts_now]
  | release x => rw [step_release, doRelease_now, fireTimeouts_now]

theorem step_now_mono (s : St) (t : ℚ) (op : Op) :
    s.now ≤ (step s (t, op)).now := by
  rw [step_now]
  exact advance_now_mono s t

theorem step_enq_ne (s : St) (t : ℚ) (op : Op) (r : Nat)
    (hop : op ≠ .request r) : (step s (t, op)).enq r = s.enq r := by
  cases op with
  | request x =>
    have hx : x ≠ r := fun he => hop (by rw [he])
    rw [step_request, doRequest_enq, Function.update_noteq (Ne.symm hx),
      fireTimeouts_enq, advance_enq]
  | release x =>
    rw [step_release, doRelease_enq, fireTimeouts_enq, advance_enq]

theorem step_outcome_stable (s : St) (t : ℚ) (op : Op) (r : Nat)
    (h : s.outcome r ≠ .Pending) :
    (step s (t, op)).outcome r = s.outcome r ∧
    (step s (t, op)).res r = s.res r := by
  have hF := fireTimeouts_stable (advance s t) r h
  cases op with
  | request x =>
    have hD := doRequest_outcome_stable x (fireTimeouts (advance s t)) r
      (by rw [hF.1]; exact h)
    rw [step_request]
    exact ⟨hD.1.trans hF.1, hD.2.trans hF.2⟩
  | release x =>
    have hD := doRelease_outcome_stable x (fireTimeouts (advance s t)) r
      (by rw [hF.1]; exact h)
    rw [step_release]
    exact ⟨hD.1.trans hF.1, hD.2.trans hF.2⟩

theorem step_outcome_not_mem (s : St) (t : ℚ) (op : Op) (r : Nat)
    (hq : r ∉ s.queue) (hop : op ≠ .request r) :
    (step s (t, op)).outcome r = s.outcome r ∧
    (step s (t, op)).res r = s.res r := by
  have hq1 : r ∉ (fireTimeouts (advance s t)).queue := by
    rw [fireTimeouts_queue, advance_queue]
    exact hq
  have hF := fireTimeouts_not_mem (advance s t) r hq
  cases op with
  | request x =>
    have hx : x ≠ r := fun he => hop (by rw [he])
    have hD := doRequest_outcome_not_mem x (fireTimeouts (advance s t)) r hx hq1
    rw [step_request]
    exact ⟨hD.1.trans hF.1, hD.2.trans hF.2⟩
  | release x =>
    have hD := doRelease_outcome_not_mem x (fireTimeouts (advance s t)) r hq1
    rw [step_release]
    exact ⟨hD.1.trans hF.1, hD.2.trans hF.2⟩

theorem step_grant_origin (s : St) (t : ℚ) (op : Op) (r : Nat)
    (hop : op ≠ .request r)
    (h : (step s (t, op)).outcome r = .Granted) :
    s.outcome r = .Granted ∨
      (r ∈ s.queue ∧ (step s (t, op)).res r = (step s (t, op)).now ∧
        (step s (t, op)).now < s.enq r + timeoutThreshold) := by
  cases op with
  | request x =>
    have hx : x ≠ r := fun he => hop (by rw [he])
    rw [step_request] at h
    rcases doRequest_grant_origin x (fireTimeouts (advance s t)) r hx h with
      h1 | ⟨hq, hp, hres⟩
    · exact Or.inl (fireTimeouts_no_grant (advance s t) r h1)
    · have hq0 : r ∈ s.queue := by
        rw [fireTimeouts_queue, advance_queue] at hq
        exact hq
      have hlt := fireTimeouts_pending_lt (advance s t) r
        (by rw [fireTimeouts_queue] at hq; exact hq) hp
      refine Or.inr ⟨hq0, ?_, ?_⟩
      · rw [step_request, doRequest_now]
        exact hres
      · rw [step_request, doRequest_now, fireTimeouts_now]
        exact hlt
  | release x =>
    rw [step_release] at h
    rcases doRelease_grant_origin x (fireTimeouts (advance s t)) r h with
      h1 | ⟨hq, hp, hres⟩
    · exact Or.inl (fireTimeouts_no_grant (advance s t) r h1)
    · have hq0 : r ∈ s.queue := by
        rw [fireTimeouts_queue, advance_queue] at hq
        exact hq
      have hlt := fireTimeouts_pending_lt (advance s t) r
        (by rw [fireTimeouts_queue] at hq; exact hq) hp
      refine Or.inr ⟨hq0, ?_, ?_⟩
      · rw [step_release, doRelease_now]
        exact hres
      · rw [step_release, doRelease_now, fireTimeouts_now]
        exact hlt

theorem step_timedout_origin (s : St) (t : ℚ) (op : Op) (r : Nat)
    (h : (step s (t, op)).outcome r = .TimedOut) :
    s.outcome r = .TimedOut ∨
      s.enq r + timeoutThreshold ≤ (step s (t, op)).now := by
  have main : (fireTimeouts (advance s t)).outcome r = .TimedOut →
      s.outcome r = .TimedOut ∨
        s.enq r + timeoutThreshold ≤ (step s (t, op)).now := by
    intro h1
    rcases fireTimeouts_timedout_origin (advance s t) r h1 with h2 | h2
    · exact Or.inl h2
    · right
      rw [step_now]
      exact h2
  cases op with
  | request x =>
    rw [step_request] at h
    exact main (doRequest_timedout_origin x _ r h)
  | release x =>
    rw [step_release] at h
    exact main (doRelease_timedout_origin x _ r h)

end RaceModel

namespace RaceModel

theorem resolution_granted (s : St) (r : Nat) (h : s.outcome r = .Granted) :
    resolution s r = s.res r := by
  rw [resolution, if_pos h]

theorem resolution_not_granted (s : St) (r : Nat) (h : s.outcome r ≠ .Granted) :
    resolution s r = s.enq r + timeoutThreshold := by
  rw [resolution, if_neg h]

theorem step_removed_resolution (s : St) (t : ℚ) (op : Op) (r : Nat)
    (hop : op ≠ .request r) (hq : r ∈ s.queue)
    (hq' : r ∉ (step s (t, op)).queue)
    (hTO : s.outcome r = .TimedOut → s.enq r + timeoutThreshold ≤ s.now)
    (hGR : s.outcome r = .Granted → s.res r ≤ s.now) :
    resolution (step s (t, op)) r ≤ (step s (t, op)).now := by
  have hmono : s.now ≤ (step s (t, op)).now := step_now_mono s t op
  have hq1 : r ∈ (fireTimeouts (advance s t)).queue := by
    rw [fireTimeouts_queue, advance_queue]
    exact hq
  cases h1 : (fireTimeouts (advance s t)).outcome r with
  | Pending =>
    cases op with
    | request x =>
      have hD := doRequest_removed_pending x (fireTimeouts (advance s t)) r hq1
        (by rw [step_request] at hq'; exact hq') h1
      rw [step_request, resolution_granted _ r hD.1, hD.2, doRequest_now]
    | release x =>
      have hD := doRelease_removed_pending x (fireTimeouts (advance s t)) r hq1
        (by rw [step_release] at hq'; exact hq') h1
      rw [step_release, resolution_granted _ r hD.1, hD.2, doRelease_now]
  | Granted =>
    have hsg : s.outcome r = .Granted := fireTimeouts_no_grant (advance s t) r h1
    have hst := step_outcome_stable s t op r (by rw [hsg]; decide)
    rw [resolution_granted _ r (by rw [hst.1]; exact hsg), hst.2]
    exact le_trans (hGR hsg) hmono
  | TimedOut =>
    have hfinal : (step s (t, op)).outcome r = .TimedOut := by
      cases op with
      | request x =>
        rw [step_request]
        exact (doRequest_outcome_stable x _ r (by rw [h1]; decide)).1.trans h1
      | release x =>
        rw [step_release]
        exact (doRelease_outcome_stable x _ r (by rw [h1]; decide)).1.trans h1
    rw [resolution_not_granted _ r (by rw [hfinal]; decide),
      step_enq_ne s t op r hop]
    rcases fireTimeouts_timedout_origin (advance s t) r h1 with h2 | h2
    · exact le_trans (hTO h2) hmono
    · rw [step_now]
      exact h2

theorem step_resolution_le (s : St) (t : ℚ) (op : Op) (r : Nat)
    (hop : op ≠ .request r) :
    resolution (step s (t, op)) r ≤ resolution s r := by
  cases hs : s.outcome r with
  | Pending =>
    rw [resolution_not_granted s r (by rw [hs]; decide)]
    cases hf : (step s (t, op)).outcome r with
    | Pending =>
      rw [resolution_not_granted _ r (by rw [hf]; decide),
        step_enq_ne s t op r hop]
    | Granted =>
      rcases step_grant_origin s t op r hop hf with h1 | ⟨_, hres, hlt⟩
      · rw [hs] at h1; cases h1
      · rw [resolution_granted _ r hf, hres]
        exact le_of_lt hlt
    | TimedOut =>
      rw [resolution_not_granted _ r (by rw [hf]; decide),
        step_enq_ne s t op r hop]
  | Granted =>
    have hst := step_outcome_stable s t op r (by rw [hs]; decide)
    rw [resolution_granted s r hs,
      resolution_granted _ r (by rw [hst.1]; exact hs), hst.2]
  | TimedOut =>
    have hst := step_outcome_stable s t op r (by rw [hs]; decide)
    rw [resolution_not_granted s r (by rw [hs]; decide),
      resolution_not_granted _ r (by rw [hst.1, hs]; decide),
      step_enq_ne s t op r hop]

theorem step_queue_mem (s : St) (t : ℚ) (op : Op) (r : Nat)
    (h : r ∈ (step s (t, op)).queue) : r ∈ s.queue ∨ op = .request r := by
  cases op with
  | request x =>
    rw [step_request, doRequest_queue] at h
    have h2 := List.mem_of_mem_drop h
    rcases List.mem_append.mp h2 with h3 | h3
    · left
      rw [fireTimeouts_queue, advance_queue] at h3
      exact h3
    · right
      rw [List.mem_singleton.mp h3]
  | release x =>
    rw [step_release, doRelease_queue] at h
    have h2 := List.mem_of_mem_drop h
    left
    rw [fireTimeouts_queue, advance_queue] at h2
    exact h2

theorem step_nodup (s : St) (t : ℚ) (op : Op) (hnd : s.queue.Nodup)
    (hfresh : ∀ x, op = .request x → x ∉ s.queue) :
    (step s (t, op)).queue.Nodup := by
  cases op with
  | request x =>
    rw [step_request, doRequest_queue]
    refine List.Nodup.sublist (List.drop_sublist _ _) ?_
    rw [fireTimeouts_queue, advance_queue]
    have hx := hfresh x rfl
    simp [List.nodup_append, hnd, hx]
  | release x =>
    rw [step_release, doRelease_queue]
    refine List.Nodup.sublist (List.drop_sublist _ _) ?_
    rw [fireTimeouts_queue, advance_queue]
    exact hnd

end RaceModel

namespace RaceModel

theorem doRequest_new_grant_removed (x : Nat) (s1 : St) (r : Nat)
    (hnd1 : (s1.queue ++ [x]).Nodup) (hp : s1.outcome r = .Pending)
    (hg : (doRequest x s1).outcome r = .Granted) :
    r ∉ (doRequest x s1).queue := by
  unfold doRequest at hg ⊢
  rcases applyGrants_grant_origin _ _ _ r hg with h1 | h2
  · have h1' : s1.outcome r = .Granted := h1
    rw [hp] at h1'
    cases h1'
  · intro hqm
    rw [applyGrants_queue] at hqm
    have hnd2 : ((grantSplit s1.capacity s1.users (s1.queue ++ [x])).1 ++
        (grantSplit s1.capacity s1.users (s1.queue ++ [x])).2).Nodup := by
      rw [grantSplit_decomp s1.capacity (s1.queue ++ [x]) s1.users]
      exact hnd1
    have hdisj := List.disjoint_of_nodup_append hnd2
    exact hdisj h2.1 hqm

theorem doRelease_new_grant_removed (x : Nat) (s1 : St) (r : Nat)
    (hnd1 : s1.queue.Nodup) (hp : s1.outcome r = .Pending)
    (hg : (doRelease x s1).outcome r = .Granted) :
    r ∉ (doRelease x s1).queue := by
  unfold doRelease at hg ⊢
  rcases applyGrants_grant_origin _ _ _ r hg with h1 | h2
  · have h1' : s1.outcome r = .Granted := h1
    rw [hp] at h1'
    cases h1'
  · intro hqm
    rw [applyGrants_queue] at hqm
    have hnd2 : ((grantSplit s1.capacity (s1.users.erase x) s1.queue).1 ++
        (grantSplit s1.capacity (s1.users.erase x) s1.queue).2).Nodup := by
      rw [grantSplit_decomp s1.capacity s1.queue (s1.users.erase x)]
      exact hnd1
    have hdisj := List.disjoint_of_nodup_append hnd2
    exact hdisj h2.1 hqm

theorem step_new_grant_removed (s : St) (t : ℚ) (op : Op) (r : Nat)
    (hop : op ≠ .request r) (hnd : s.queue.Nodup)
    (hfr : ∀ x, op = .request x → x ∉ s.queue)
    (hpre : s.outcome r ≠ .Granted)
    (hg : (step s (t, op)).outcome r = .Granted) :
    r ∉ (step s (t, op)).queue := by
  have hs1g : (fireTimeouts (advance s t)).outcome r ≠ .Granted :=
    fun hc => hpre (fireTimeouts_no_grant (advance s t) r hc)
  cases op with
  | request x =>
    rw [step_request] at hg ⊢
    have hx : x ≠ r := fun he => hop (by rw [he])
    rcases doRequest_grant_origin x _ r hx hg with h1 | ⟨_, hp, _⟩
    · exact absurd h1 hs1g
    · refine doRequest_new_grant_removed x _ r ?_ hp hg
      rw [fireTimeouts_queue, advance_queue]
      have hxq : x ∉ s.queue := hfr x rfl
      simp [List.nodup_append, hnd, hxq]
  | release x =>
    rw [step_release] at hg ⊢
    rcases doRelease_grant_origin x _ r hg with h1 | ⟨_, hp, _⟩
    · exact absurd h1 hs1g
    · refine doRelease_new_grant_removed x _ r ?_ hp hg
      rw [fireTimeouts_queue, advance_queue]
      exact hnd

theorem step_queue_shape (s : St) (t : ℚ) (op : Op) :
    ∃ (app : List Nat) (k : Nat),
      (step s (t, op)).queue = (s.queue ++ app).drop k ∧
      (∀ y ∈ app, op = .request y) ∧ app.Nodup := by
  cases op with
  | request x =>
    refine ⟨[x], (grantSplit s.capacity s.users (s.queue ++ [x])).1.length,
      ?_, ?_, List.nodup_singleton x⟩
    · rw [step_request, doRequest_queue, fireTimeouts_queue, advance_queue,
        fireTimeouts_capacity, advance_capacity, fireTimeouts_users,
        advance_users]
    · intro y hy
      rw [List.mem_singleton.mp hy]
  | release x =>
    refine ⟨[], (grantSplit s.capacity (s.users.erase x) s.queue).1.length,
      ?_, fun y hy => absurd hy (List.not_mem_nil y), List.nodup_nil⟩
    rw [step_release, doRelease_queue, fireTimeouts_queue, advance_queue,
      fireTimeouts_capacity, advance_capacity, fireTimeouts_users,
      advance_users, List.append_nil]

end RaceModel

namespace RaceModel

theorem wfq_step_release (s : St) (t : ℚ) (x : Nat) (ids : List Nat)
    (h : WfQ s ids) : WfQ (step s (t, .release x)) ids := by
  obtain ⟨hnd, hqs, hos⟩ := h
  refine ⟨step_nodup s t _ hnd (fun y hy => by cases hy), ?_, ?_⟩
  · intro r hr
    rcases step_queue_mem s t _ r hr with h1 | h1
    · exact hqs r h1
    · cases h1
  · intro r hne
    by_cases hq : r ∈ s.queue
    · exact hqs r hq
    · have hst := step_outcome_not_mem s t (Op.release x) r hq
        (fun hc => by cases hc)
      exact hos r (by rwa [hst.1] at hne)

theorem wfq_step_request (s : St) (t : ℚ) (x : Nat) (ids : List Nat)
    (hx : x ∉ ids) (h : WfQ s ids) :
    WfQ (step s (t, .request x)) (ids ++ [x]) := by
  obtain ⟨hnd, hqs, hos⟩ := h
  have hxq : x ∉ s.queue := fun hc => hx (hqs x hc)
  refine ⟨step_nodup s t _ hnd (fun y hy => by cases hy; exact hxq), ?_, ?_⟩
  · intro r hr
    rcases step_queue_mem s t _ r hr with h1 | h1
    · exact List.mem_append_left _ (hqs r h1)
    · cases h1
      exact List.mem_append_right _ (List.mem_singleton_self x)
  · intro r hne
    by_cases hxr : x = r
    · subst hxr
      exact List.mem_append_right _ (List.mem_singleton_self x)
    · by_cases hq : r ∈ s.queue
      · exact List.mem_append_left _ (hqs r hq)
      · have hst := step_outcome_not_mem s t (Op.request x) r hq
          (fun hc => hxr (Op.request.inj hc.symm).symm)
        exact List.mem_append_left _ (hos r (by rwa [hst.1] at hne))

theorem gia_step (s : St) (t : ℚ) (op : Op) (a : Nat) (ta : ℚ)
    (hop : op ≠ .request a) (h : GIA s a ta) : GIA (step s (t, op)) a ta := by
  obtain ⟨henq, hgr, hto⟩ := h
  have hmono := step_now_mono s t op
  refine ⟨(step_enq_ne s t op a hop).trans henq, ?_, ?_⟩
  · intro hg
    rcases step_grant_origin s t op a hop hg with h1 | ⟨_, hres, hlt⟩
    · have hst := step_outcome_stable s t op a (by rw [h1]; decide)
      rw [hst.2]
      exact ⟨le_trans (hgr h1).1 hmono, (hgr h1).2⟩
    · rw [hres]
      refine ⟨le_refl _, ?_⟩
      rw [henq] at hlt
      exact hlt
  · intro hg
    rcases step_timedout_origin s t op a hg with h1 | h1
    · exact le_trans (hto h1) hmono
    · rw [henq] at h1
      exact h1

theorem kinv_step (s : St) (t : ℚ) (op : Op) (a : Nat) (ta : ℚ)
    (hop : op ≠ .request a) (hg : GIA s a ta) (h : Kinv s a) :
    Kinv (step s (t, op)) a := by
  rcases h with hq | hres
  · by_cases hq' : a ∈ (step s (t, op)).queue
    · exact Or.inl hq'
    · right
      exact step_removed_resolution s t op a hop hq hq'
        (fun hto => by rw [hg.1]; exact hg.2.2 hto)
        (fun hgr => (hg.2.1 hgr).1)
  · right
    exact le_trans (step_resolution_le s t op a hop)
      (le_trans hres (step_now_mono s t op))

theorem jinv_step (s : St) (t : ℚ) (op : Op) (a b : Nat) (ta : ℚ)
    (hopa : op ≠ .request a) (hopb : op ≠ .request b)
    (hnd : s.queue.Nodup)
    (hfresh : ∀ x, op = .request x → x ∉ s.queue)
    (hga : GIA s a ta)
    (hJ : Jinv s a b) :
    Jinv (step s (t, op)) a b := by
  obtain ⟨app, k, hqeq, happ, happnd⟩ := step_queue_shape s t op
  have hbnotapp : b ∉ app := fun hc => hopb (happ b hc)
  have happq : ∀ y ∈ app, y ∉ s.queue := fun y hy => hfresh y (happ y hy)
  have hndfull : (s.queue ++ app).Nodup := by
    rw [List.nodup_append]
    exact ⟨hnd, happnd, fun y hy hy2 => happq y hy2 hy⟩
  have hTOa : s.outcome a = .TimedOut →
      s.enq a + timeoutThreshold ≤ s.now := by
    intro hto
    rw [← hga.1]at hga ⊢
    exact hga.2.2 hto
  have hGRa : s.outcome a = .Granted → s.res a ≤ s.now :=
    fun hgr => (hga.2.1 hgr).1
  have hmono : s.now ≤ (step s (t, op)).now := step_now_mono s t op
  by_cases hbq' : b ∈ (step s (t, op)).queue
  · refine ⟨fun _ => ⟨?_, ?_⟩, fun hbn => absurd hbq' hbn⟩
    · -- while b stays queued its race cannot have been won by a grant
      have hbfull : b ∈ s.queue ++ app := by
        rw [hqeq] at hbq'
        exact List.mem_of_mem_drop hbq'
      have hbq : b ∈ s.queue :=
        (List.mem_append.mp hbfull).resolve_right (fun hc => hbnotapp hc)
      have hbno := (hJ.1 hbq).1
      intro hg'
      exact step_new_grant_removed s t op b hopb hnd hfresh hbno hg' hbq'
    · -- FIFO position or resolved bound
      have hbfull : b ∈ s.queue ++ app := by
        rw [hqeq] at hbq'
        exact List.mem_of_mem_drop hbq'
      have hbq : b ∈ s.queue :=
        (List.mem_append.mp hbfull).resolve_right (fun hc => hbnotapp hc)
      rcases (hJ.1 hbq).2 with hbef | hbound
      · have hbefull : Before a b (s.queue ++ app) := before_append hbef
        have hbdrop : b ∈ (s.queue ++ app).drop k := by
          rw [← hqeq]
          exact hbq'
        rcases before_drop hndfull hbefull hbdrop with hbf | hanot
        · left
          rw [hqeq]
          exact hbf
        · right
          have haq : a ∈ s.queue := before_mem_left hbef
          have haq' : a ∉ (step s (t, op)).queue := by
            rw [hqeq]
            exact hanot
          exact step_removed_resolution s t op a hopa haq haq' hTOa hGRa
      · right
        exact le_trans (step_resolution_le s t op a hopa)
          (le_trans hbound hmono)
  · refine ⟨fun hbq'' => absurd hbq'' hbq', fun _ hgb' => ?_⟩
    by_cases hbq : b ∈ s.queue
    · have hbno := (hJ.1 hbq).1
      rcases step_grant_origin s t op b hopb hgb' with h1 | ⟨_, hresb, _⟩
      · exact absurd h1 hbno
      · rw [hresb]
        rcases (hJ.1 hbq).2 with hbef | hbound
        · have hbefull : Before a b (s.queue ++ app) := before_append hbef
          have hbnotdrop : b ∉ (s.queue ++ app).drop k := by
            rw [← hqeq]
            exact hbq'
          have hanot := before_drop_cross hndfull hbefull hbnotdrop
          have haq' : a ∉ (step s (t, op)).queue := by
            rw [hqeq]
            exact hanot
          have haq : a ∈ s.queue := before_mem_left hbef
          exact step_removed_resolution s t op a hopa haq haq' hTOa hGRa
        · exact le_trans (step_resolution_le s t op a hopa)
            (le_trans hbound hmono)
    · have hsg : s.outcome b = .Granted := by
        rcases step_grant_origin s t op b hopb hgb' with h1 | ⟨hc, _, _⟩
        · exact h1
        · exact absurd hc hbq
      have hst := step_outcome_stable s t op b (by rw [hsg]; decide)
      rw [hst.2]
      exact le_trans (step_resolution_le s t op a hopa) (hJ.2 hbq hsg)

end RaceModel

namespace RaceModel

theorem reqIds_append (l₁ l₂ : List (ℚ × Op)) :
    reqIds (l₁ ++ l₂) = reqIds l₁ ++ reqIds l₂ := by
  unfold reqIds
  exact List.filterMap_append l₁ l₂ _

theorem reqIds_cons_request (t : ℚ) (x : Nat) (l : List (ℚ × Op)) :
    reqIds ((t, Op.request x) :: l) = x :: reqIds l := rfl

theorem reqIds_cons_release (t : ℚ) (x : Nat) (l : List (ℚ × Op)) :
    reqIds ((t, Op.release x) :: l) = reqIds l := rfl

theorem step_now_le (s : St) (t : ℚ) (op : Op) (c : ℚ) (hs : s.now ≤ c)
    (ht : t ≤ c) : (step s (t, op)).now ≤ c := by
  rw [step_now, advance_now]
  split <;> assumption

theorem run_now_le : ∀ (l : List (ℚ × Op)) (s : St) (c : ℚ),
    (∀ p ∈ l, p.1 ≤ c) → s.now ≤ c → (l.foldl step s).now ≤ c := by
  intro l
  induction l with
  | nil => intro s c _ hs; exact hs
  | cons p rest ih =>
    intro s c hl hs
    rw [List.foldl_cons]
    exact ih _ c (fun q hq => hl q (List.mem_cons_of_mem p hq))
      (step_now_le s p.1 p.2 c hs (hl p (List.mem_cons_self p rest)))

theorem request_step_now (s : St) (t : ℚ) (x : Nat) (hle : s.now ≤ t) :
    (step s (t, .request x)).now = t := by
  rw [step_now, advance_now, if_pos hle]

theorem request_step_enq (s : St) (t : ℚ) (x : Nat) (hle : s.now ≤ t) :
    (step s (t, .request x)).enq x = t := by
  rw [step_request, doRequest_enq, Function.update_same, fireTimeouts_now,
    advance_now, if_pos hle]

theorem wfq_fresh_pending (s : St) (ids : List Nat) (x : Nat) (h : WfQ s ids)
    (hx : x ∉ ids) : s.outcome x = .Pending := by
  by_contra hc
  exact hx (h.2.2 x hc)

theorem request_step_pending (s : St) (t : ℚ) (x : Nat)
    (hnd : s.queue.Nodup) (hxq : x ∉ s.queue) (hxo : s.outcome x = .Pending)
    (hq' : x ∈ (step s (t, .request x)).queue) :
    (step s (t, .request x)).outcome x = .Pending := by
  rw [step_request] at hq' ⊢
  have hfire := fireTimeouts_not_mem (advance s t) x
    (by rw [advance_queue]; exact hxq)
  have hs1o : (fireTimeouts (advance s t)).outcome x = .Pending :=
    hfire.1.trans hxo
  have hndfull : ((fireTimeouts (advance s t)).queue ++ [x]).Nodup := by
    rw [fireTimeouts_queue, advance_queue]
    simp [List.nodup_append, hnd, hxq]
  have hqueue : (doRequest x (fireTimeouts (advance s t))).queue =
      (grantSplit (fireTimeouts (advance s t)).capacity
        (fireTimeouts (advance s t)).users
        ((fireTimeouts (advance s t)).queue ++ [x])).2 := by
    simp [doRequest]
  have hnd2 := hndfull
  rw [← grantSplit_decomp (fireTimeouts (advance s t)).capacity
    ((fireTimeouts (advance s t)).queue ++ [x])
    (fireTimeouts (advance s t)).users] at hnd2
  have hxg : x ∉ (grantSplit (fireTimeouts (advance s t)).capacity
      (fireTimeouts (advance s t)).users
      ((fireTimeouts (advance s t)).queue ++ [x])).1 := by
    intro hgmem
    exact (List.disjoint_of_nodup_append hnd2) hgmem (hqueue ▸ hq')
  unfold doRequest
  exact (applyGrants_not_mem _ _ _ x hxg).1.trans hs1o

theorem wfq_fold : ∀ (l : List (ℚ × Op)) (s : St) (ids : List Nat),
    (ids ++ reqIds l).Nodup → WfQ s ids →
    WfQ (l.foldl step s) (ids ++ reqIds l) := by
  intro l
  induction l with
  | nil => intro s ids _ h; simpa [reqIds] using h
  | cons p rest ih =>
    intro s ids hnd h
    obtain ⟨t, op⟩ := p
    rw [List.foldl_cons]
    cases op with
    | request x =>
      rw [reqIds_cons_request] at hnd ⊢
      have hx : x ∉ ids := by
        intro hc
        exact (List.disjoint_of_nodup_append hnd) hc (List.mem_cons_self x _)
      have hnd' : ((ids ++ [x]) ++ reqIds rest).Nodup := by
        rw [List.append_assoc, List.singleton_append]
        exact hnd
      have := ih (step s (t, Op.request x)) (ids ++ [x]) hnd'
        (wfq_step_request s t x ids hx h)
      rw [List.append_assoc, List.singleton_append] at this
      exact this
    | release x =>
      rw [reqIds_cons_release] at hnd ⊢
      exact ih _ ids hnd (wfq_step_release s t x ids h)

theorem m1_fold (a : Nat) (ta : ℚ) : ∀ (l : List (ℚ × Op)) (s : St)
    (ids : List Nat), a ∈ ids → (ids ++ reqIds l).Nodup →
    GIA s a ta ∧ WfQ s ids ∧ Kinv s a →
    GIA (l.foldl step s) a ta ∧ WfQ (l.foldl step s) (ids ++ reqIds l) ∧
      Kinv (l.foldl step s) a := by
  intro l
  induction l with
  | nil => intro s ids _ _ h; simpa [reqIds] using h
  | cons p rest ih =>
    intro s ids ha hnd h
    obtain ⟨t, op⟩ := p
    rw [List.foldl_cons]
    cases op with
    | request x =>
      rw [reqIds_cons_request] at hnd ⊢
      have hx : x ∉ ids := by
        intro hc
        exact (List.disjoint_of_nodup_append hnd) hc (List.mem_cons_self x _)
      have hxa : Op.request x ≠ Op.request a :=
        fun hc => hx ((Op.request.inj hc) ▸ ha)
      have hnd' : ((ids ++ [x]) ++ reqIds rest).Nodup := by
        rw [List.append_assoc, List.singleton_append]
        exact hnd
      have := ih (step s (t, Op.request x)) (ids ++ [x])
        (List.mem_append_left _ ha) hnd'
        ⟨gia_step s t _ a ta hxa h.1,
         wfq_step_request s t x ids hx h.2.1,
         kinv_step s t _ a ta hxa h.1 h.2.2⟩
      rw [List.append_assoc, List.singleton_append] at this
      exact this
    | release x =>
      rw [reqIds_cons_release] at hnd ⊢
      have hop : Op.release x ≠ Op.request a := fun hc => by cases hc
      exact ih _ ids ha hnd
        ⟨gia_step s t _ a ta hop h.1,
         wfq_step_release s t x ids h.2.1,
         kinv_step s t _ a ta hop h.1 h.2.2⟩

theorem m2_fold (a b : Nat) (ta tb : ℚ) : ∀ (l : List (ℚ × Op)) (s : St)
    (ids : List Nat), a ∈ ids → b ∈ ids → (ids ++ reqIds l).Nodup →
    GIA s a ta ∧ GIA s b tb ∧ WfQ s ids ∧ Jinv s a b →
    GIA (l.foldl step s) a ta ∧ GIA (l.foldl step s) b tb ∧
      WfQ (l.foldl step s) (ids ++ reqIds l) ∧
      Jinv (l.foldl step s) a b := by
  intro l
  induction l with
  | nil => intro s ids _ _ _ h; simpa [reqIds] using h
  | cons p rest ih =>
    intro s ids ha hb hnd h
    obtain ⟨t, op⟩ := p
    rw [List.foldl_cons]
    obtain ⟨hga, hgb, hwf, hJ⟩ := h
    cases op with
    | request x =>
      rw [reqIds_cons_request] at hnd ⊢
      have hx : x ∉ ids := by
        intro hc
        exact (List.disjoint_of_nodup_append hnd) hc (List.mem_cons_self x _)
      have hxa : Op.request x ≠ Op.request a :=
        fun hc => hx ((Op.request.inj hc) ▸ ha)
      have hxb : Op.request x ≠ Op.request b :=
        fun hc => hx ((Op.request.inj hc) ▸ hb)
      have hfresh : ∀ y, Op.request x = Op.request y → y ∉ s.queue :=
        fun y hy => by
          rw [← Op.request.inj hy]
          exact fun hc => hx (hwf.2.1 x hc)
      have hnd' : ((ids ++ [x]) ++ reqIds rest).Nodup := by
        rw [List.append_assoc, List.singleton_append]
        exact hnd
      have := ih (step s (t, Op.request x)) (ids ++ [x])
        (List.mem_append_left _ ha) (List.mem_append_left _ hb) hnd'
        ⟨gia_step s t _ a ta hxa hga,
         gia_step s t _ b tb hxb hgb,
         wfq_step_request s t x ids hx hwf,
         jinv_step s t _ a b ta hxa hxb hwf.1 hfresh hga hJ⟩
      rw [List.append_assoc, List.singleton_append] at this
      exact this
    | release x =>
      rw [reqIds_cons_release] at hnd ⊢
      have hopa : Op.release x ≠ Op.request a := fun hc => by cases hc
      have hopb : Op.release x ≠ Op.request b := fun hc => by cases hc
      have hfresh : ∀ y, Op.release x = Op.request y → y ∉ s.queue :=
        fun y hy => by cases hy
      exact ih _ ids ha hb hnd
        ⟨gia_step s t _ a ta hopa hga,
         gia_step s t _ b tb hopb hgb,
         wfq_step_release s t x ids hwf,
         jinv_step s t _ a b ta hopa hopb hwf.1 hfresh hga hJ⟩

end RaceModel

namespace RaceModel

theorem before_cross_append {x y : Nat} {l₁ l₂ : List Nat} (hx : x ∈ l₁)
    (hy : y ∈ l₂) : Before x y (l₁ ++ l₂) := by
  obtain ⟨i, hi⟩ := mem_iff_some_getElem.mp hx
  obtain ⟨j, hj⟩ := mem_iff_some_getElem.mp hy
  have hil : i < l₁.length := (List.getElem?_eq_some.mp hi).1
  refine ⟨i, l₁.length + j, by omega, ?_, ?_⟩
  · rw [List.getElem?_append_left hil]
    exact hi
  · rw [List.getElem?_append_right (by omega), Nat.add_sub_cancel_left]
    exact hj

end RaceModel

open RaceModel in
/-- C4: FIFO fairness of the pool.  If request `a` enqueues at `ta`
strictly before request `b` enqueues at `tb` on the same saturated pool
(both land in the wait queue), then along any continuation of the trace
the race of `a` reaches its terminal outcome (`Granted` or `TimedOut`) at
a virtual time no later than the race of `b`: the trigger loop grants in
FIFO order and the fixed 10000 minute timeout of the earlier request fires
earlier. -/
theorem c4_fifo_resolution_order
    (cap : Nat) (pre mid post : List (ℚ × Op)) (ta tb : ℚ)
    (a b : Nat) (ops : List (ℚ × Op))
    (hops : ops = pre ++ (ta, .request a) :: mid ++ (tb, .request b) :: post)
    (hta : 0 ≤ ta) (htab : ta < tb)
    (hpre : ∀ p ∈ pre, p.1 ≤ ta)
    (hmid : ∀ p ∈ mid, p.1 ≤ tb)
    (hnodup : (reqIds ops).Nodup)
    (hA : a ∈ (run cap (pre ++ [(ta, .request a)])).queue)
    (hB : b ∈ (run cap
      (pre ++ (ta, .request a) :: mid ++ [(tb, .request b)])).queue) :
    resolution (run cap ops) a ≤ resolution (run cap ops) b := by
  subst hops
  rw [run, List.foldl_append, List.foldl_cons, List.foldl_nil] at hA
  rw [run, List.foldl_append, List.foldl_cons, List.foldl_append,
    List.foldl_cons, List.foldl_nil] at hB
  rw [run, List.foldl_append, List.foldl_cons, List.foldl_append,
    List.foldl_cons]
  set sP := List.foldl step (init cap) pre with hsP
  set sA := step sP (ta, Op.request a) with hsA
  set sM := List.foldl step sA mid with hsM
  set sB := step sM (tb, Op.request b) with hsB
  set sE := List.foldl step sB post with hsE
  -- request id bookkeeping
  have hids : reqIds (pre ++ (ta, Op.request a) :: mid ++
      (tb, Op.request b) :: post) =
      reqIds pre ++ a :: (reqIds mid ++ b :: reqIds post) := by
    simp [reqIds_append, reqIds_cons_request]
  rw [hids] at hnodup
  have hsplit1 : reqIds pre ++ a :: (reqIds mid ++ b :: reqIds post) =
      ((reqIds pre ++ [a]) ++ reqIds mid) ++ (b :: reqIds post) := by
    simp [List.append_assoc]
  have hndP : (reqIds pre).Nodup := (List.nodup_append.mp hnodup).1
  have hndTail : (a :: (reqIds mid ++ b :: reqIds post)).Nodup :=
    (List.nodup_append.mp hnodup).2.1
  have haP : a ∉ reqIds pre := fun hc =>
    (List.disjoint_of_nodup_append hnodup) hc (List.mem_cons_self a _)
  have haTail : a ∉ reqIds mid ++ b :: reqIds post :=
    (List.nodup_cons.mp hndTail).1
  have hab : a ≠ b := fun he =>
    haTail (List.mem_append_right _ (he ▸ List.mem_cons_self b _))
  have hndBig : (((reqIds pre ++ [a]) ++ reqIds mid) ++
      (b :: reqIds post)).Nodup := by
    rw [← hsplit1]
    exact hnodup
  have hbM : b ∉ (reqIds pre ++ [a]) ++ reqIds mid := fun hc =>
    (List.disjoint_of_nodup_append hndBig) hc (List.mem_cons_self b _)
  -- phase 1: the prefix before the enqueue of a
  have hwf0 : WfQ (init cap) [] :=
    ⟨List.nodup_nil, fun r hr => absurd hr (List.not_mem_nil r),
     fun r hne => absurd rfl hne⟩
  have hwfP : WfQ sP (reqIds pre) := by
    have h0 : (([] : List Nat) ++ reqIds pre).Nodup := by simpa using hndP
    have := wfq_fold pre (init cap) [] h0 hwf0
    simpa using this
  have hnowP : sP.now ≤ ta :=
    run_now_le pre (init cap) ta hpre hta
  -- the enqueue of a
  have haPq : a ∉ sP.queue := fun hc => haP (hwfP.2.1 a hc)
  have haPo : sP.outcome a = .Pending := wfq_fresh_pending sP _ a hwfP haP
  have houtA : sA.outcome a = .Pending :=
    request_step_pending sP ta a hwfP.1 haPq haPo hA
  have henqA : sA.enq a = ta := request_step_enq sP ta a hnowP
  have hnowA : sA.now = ta := request_step_now sP ta a hnowP
  have hgiaA : GIA sA a ta := by
    refine ⟨henqA, fun hg => ?_, fun ht => ?_⟩
    · rw [houtA] at hg
      cases hg
    · rw [houtA] at ht
      cases ht
  have hwfA : WfQ sA (reqIds pre ++ [a]) := wfq_step_request sP ta a _ haP hwfP
  have hkA : Kinv sA a := Or.inl hA
  -- phase 2: between the two enqueues
  have hndM : ((reqIds pre ++ [a]) ++ reqIds mid).Nodup :=
    (List.nodup_append.mp hndBig).1
  have hM := m1_fold a ta mid sA (reqIds pre ++ [a])
    (List.mem_append_right _ (List.mem_singleton_self a)) hndM
    ⟨hgiaA, hwfA, hkA⟩
  obtain ⟨hgiaM, hwfM, hkM⟩ := hM
  -- the enqueue of b
  have hnowM : sM.now ≤ tb :=
    run_now_le mid sA tb hmid (by rw [hnowA]; exact le_of_lt htab)
  have hbMq : b ∉ sM.queue := fun hc => hbM (hwfM.2.1 b hc)
  have hbMo : sM.outcome b = .Pending := wfq_fresh_pending sM _ b hwfM hbM
  have houtB : sB.outcome b = .Pending :=
    request_step_pending sM tb b hwfM.1 hbMq hbMo hB
  have henqB : sB.enq b = tb := request_step_enq sM tb b hnowM
  have hgiaB : GIA sB b tb := by
    refine ⟨henqB, fun hg => ?_, fun ht => ?_⟩
    · rw [houtB] at hg
      cases hg
    · rw [houtB] at ht
      cases ht
  have hopBa : Op.request b ≠ Op.request a :=
    fun hc => hab (Op.request.inj hc).symm
  have hgiaAB : GIA sB a ta := gia_step sM tb _ a ta hopBa hgiaM
  have hwfB : WfQ sB (((reqIds pre ++ [a]) ++ reqIds mid) ++ [b]) :=
    wfq_step_request sM tb b _ hbM hwfM
  have hkB : Kinv sB a := kinv_step sM tb _ a ta hopBa hgiaM hkM
  have hJB : Jinv sB a b := by
    constructor
    · intro _
      refine ⟨by rw [houtB]; decide, ?_⟩
      rcases hkB with haq | hbound
      · left
        obtain ⟨app, k, hqeq, happ, happnd⟩ :=
          step_queue_shape sM tb (Op.request b)
        have happb : ∀ y ∈ app, y = b :=
          fun y hy => (Op.request.inj (happ y hy)).symm
        have hafull : a ∈ sM.queue ++ app := by
          rw [hqeq] at haq
          exact List.mem_of_mem_drop haq
        have haM : a ∈ sM.queue :=
          (List.mem_append.mp hafull).resolve_right
            (fun hc => hab (happb a hc))
        have hbfull : b ∈ sM.queue ++ app := by
          rw [hqeq] at hB
          exact List.mem_of_mem_drop hB
        have hbapp : b ∈ app :=
          (List.mem_append.mp hbfull).resolve_left (fun hc => hbMq hc)
        have hndfull : (sM.queue ++ app).Nodup := by
          rw [List.nodup_append]
          exact ⟨hwfM.1, happnd,
            fun y hyq hya => hbMq ((happb y hya) ▸ hyq)⟩
        have hbef : Before a b (sM.queue ++ app) :=
          before_cross_append haM hbapp
        have hbdrop : b ∈ (sM.queue ++ app).drop k := by
          rw [← hqeq]
          exact hB
        rcases before_drop hndfull hbef hbdrop with hgood | habs
        · rw [hqeq]
          exact hgood
        · exfalso
          rw [hqeq] at haq
          exact habs haq
      · right
        exact hbound
    · intro hbn
      exact absurd hB hbn
  -- phase 3: after both enqueues
  have hndE : ((((reqIds pre ++ [a]) ++ reqIds mid) ++ [b]) ++
      reqIds post).Nodup := by
    have h2 : ((reqIds pre ++ [a]) ++ reqIds mid) ++ (b :: reqIds post) =
        ((((reqIds pre ++ [a]) ++ reqIds mid) ++ [b]) ++ reqIds post) := by
      simp [List.append_assoc]
    rw [← h2]
    exact hndBig
  have haE : a ∈ (((reqIds pre ++ [a]) ++ reqIds mid) ++ [b]) :=
    List.mem_append_left _ (List.mem_append_left _
      (List.mem_append_right _ (List.mem_singleton_self a)))
  have hbE : b ∈ (((reqIds pre ++ [a]) ++ reqIds mid) ++ [b]) :=
    List.mem_append_right _ (List.mem_singleton_self b)
  have hE := m2_fold a b ta tb post sB _ haE hbE hndE
    ⟨hgiaAB, hgiaB, hwfB, hJB⟩
  obtain ⟨hgaE, hgbE, hwfE, hJE⟩ := hE
  -- endgame
  by_cases hgb : sE.outcome b = .Granted
  · have hbnq : b ∉ sE.queue := fun hq => (hJE.1 hq).1 hgb
    rw [resolution_granted sE b hgb]
    exact hJE.2 hbnq hgb
  · rw [resolution_not_granted sE b hgb, hgbE.1]
    have h1 : resolution sE a ≤ ta + timeoutThreshold := by
      by_cases hga' : sE.outcome a = .Granted
      · rw [resolution_granted _ _ hga']
        exact le_of_lt (hgaE.2.1 hga').2
      · rw [resolution_not_granted _ _ hga', hgaE.1]
    exact le_of_lt (lt_of_le_of_lt h1 (add_lt_add_right htab _))

/-- Witness for C4 at a concrete saturated trace: requests 1 and 2 enqueue
at times 1 and 2 behind the held capacity, and request 1 resolves at time
5, no later than request 2 at time 6. -/
theorem c4_fifo_resolution_order_witness :
    RaceModel.resolution (RaceModel.run 1 Instances.c4ops) 1 ≤
      RaceModel.resolution (RaceModel.run 1 Instances.c4ops) 2 :=
  c4_fifo_resolution_order 1 [(0, .request 0)] []
    [(5, .release 0), (6, .release 1), (7, .release 2)] 1 2 1 2
    Instances.c4ops rfl
    (by norm_num)
    (by norm_num)
    (by intro p hp; rw [List.mem_singleton.mp hp]; norm_num)
    (by intro p hp; cases hp)
    (by decide)
    (by norm_num [RaceModel.run, RaceModel.step, RaceModel.advance,
      RaceModel.doRequest, RaceModel.doRelease, RaceModel.fireTimeouts,
      RaceModel.fireOne, RaceModel.grantSplit, RaceModel.applyGrants,
      RaceModel.init, RaceModel.timeoutThreshold, Function.update])
    (by norm_num [RaceModel.run, RaceModel.step, RaceModel.advance,
      RaceModel.doRequest, RaceModel.doRelease, RaceModel.fireTimeouts,
      RaceModel.fireOne, RaceModel.grantSplit, RaceModel.applyGrants,
      RaceModel.init, RaceModel.timeoutThreshold, Function.update])
